import Mathlib

/-!
Shallow embedding of the workflow-visualizer backend (the Express server file):
the commit collector of the `/api/graph/:owner/:repo` handler, `ensureParents`,
`buildGraphFromCommits` with its branch-propagation and classification passes,
and the stats block.  JavaScript `Map` objects (which preserve insertion order
and update values in place) are modelled as association lists with
`jsMapGet` and `jsMapSet`; JavaScript `Set` objects as duplicate-free lists with
`jsSetAdd`.  Remote calls are modelled as pure provider functions: a paginated
commit lister returns the sequence of pages a run would observe, and a
single-commit fetcher returns `Option Commit` (with `none` for a failed fetch).
-/

/-- A commit as the backend consumes it: `sha`, the two author fields used by
the fallback chain in node creation, the message, the author date and the
list of parent shas.  Missing optional fields are the empty string. -/
structure Commit where
  sha : String
  authorName : String
  authorLogin : String
  message : String
  date : String
  parents : List String
deriving Repr, DecidableEq

/-- A graph node as produced by `buildGraphFromCommits`. -/
structure Node where
  id : String
  author : String
  message : String
  date : String
  branches : List String
  parentShas : List String
  childShas : List String
  isMerge : Bool
  isSplit : Bool
deriving Repr, DecidableEq

/-- A directed link pushed for every (commit, parent) pair. -/
structure Link where
  source : String
  target : String
deriving Repr, DecidableEq

/-- The value returned by `buildGraphFromCommits`. -/
structure Graph where
  nodes : List Node
  links : List Link
deriving Repr, DecidableEq

/-- JavaScript `Map.get`: the value of the first (hence only) entry with the
given key. -/
def jsMapGet {α : Type} (m : List (String × α)) (k : String) : Option α :=
  (m.find? (fun p => p.1 == k)).map Prod.snd

/-- JavaScript `Map.has`. -/
def jsMapHas {α : Type} (m : List (String × α)) (k : String) : Bool :=
  (jsMapGet m k).isSome

/-- JavaScript `Map.set`: update in place when the key exists (preserving
insertion order), otherwise append a fresh entry. -/
def jsMapSet {α : Type} (m : List (String × α)) (k : String) (v : α) :
    List (String × α) :=
  if jsMapHas m k then m.map (fun p => if p.1 == k then (k, v) else p)
  else m ++ [(k, v)]

/-- JavaScript `Set.add` on an insertion-ordered duplicate-free list. -/
def jsSetAdd (s : List String) (x : String) : List String :=
  if x ∈ s then s else s ++ [x]

/-- `new Set(list)` then `Array.from`: de-duplicate keeping first occurrences. -/
def jsSetOfList (l : List String) : List String :=
  l.foldl jsSetAdd []

/-- The author fallback chain of node creation:
`(c.commit?.author?.name) || (c.author?.login) || ""`. -/
def nodeAuthor (c : Commit) : String :=
  if c.authorName ≠ "" then c.authorName
  else if c.authorLogin ≠ "" then c.authorLogin
  else ""

/-- `commitToBranches.has(sha) ? Array.from(commitToBranches.get(sha)) : []`. -/
def ctbGet (ctb : List (String × List String)) (sha : String) : List String :=
  (jsMapGet ctb sha).getD []

/-- The node built for a fetched commit in pass 1 of `buildGraphFromCommits`. -/
def initNode (ctb : List (String × List String)) (c : Commit) : Node :=
  { id := c.sha
    author := nodeAuthor c
    message := c.message
    date := c.date
    branches := ctbGet ctb c.sha
    parentShas := c.parents
    childShas := []
    isMerge := false
    isSplit := false }

/-- Pass 1 of `buildGraphFromCommits`: create one node per commit. -/
def pass1 (ctb : List (String × List String)) (commits : List Commit) :
    List (String × Node) :=
  commits.foldl (fun m c => jsMapSet m c.sha (initNode ctb c)) []

/-- The placeholder node created in pass 2 for a parent sha with no node. -/
def placeholderNode (sha : String) (inheritedBranches : List String) : Node :=
  { id := sha
    author := ""
    message := "(parent)"
    date := ""
    branches := inheritedBranches
    parentShas := []
    childShas := []
    isMerge := false
    isSplit := false }

/-- `childNode?.branches || []`: the branch list inherited by a placeholder. -/
def inheritedOf (m : List (String × Node)) (childSha : String) : List String :=
  match jsMapGet m childSha with
  | some childNode => childNode.branches
  | none => []

/-- The body of pass 2 for one (commit, parent) pair: create the placeholder
node when the parent sha is unknown, then append the child sha to the parent
node's child set if not already present. -/
def addParentEdge (m : List (String × Node)) (childSha parentSha : String) :
    List (String × Node) :=
  let m1 :=
    if jsMapHas m parentSha then m
    else jsMapSet m parentSha (placeholderNode parentSha (inheritedOf m childSha))
  match jsMapGet m1 parentSha with
  | some parentNode =>
    if childSha ∈ parentNode.childShas then m1
    else jsMapSet m1 parentSha
      { parentNode with childShas := parentNode.childShas ++ [childSha] }
  | none => m1

/-- Pass 2 of `buildGraphFromCommits`: one loop that both updates the node map
(placeholders and child sets) and pushes a link for every (commit, parent)
pair. -/
def pass2 (commits : List Commit) (m : List (String × Node)) :
    List (String × Node) × List Link :=
  commits.foldl
    (fun acc c =>
      c.parents.foldl
        (fun acc parentSha =>
          (addParentEdge acc.1 c.sha parentSha,
           acc.2 ++ [{ source := c.sha, target := parentSha }]))
        acc)
    (m, [])

/-- The node map component of pass 2 alone. -/
def pass2Map (commits : List Commit) (m : List (String × Node)) :
    List (String × Node) :=
  commits.foldl
    (fun m c => c.parents.foldl (fun m parentSha => addParentEdge m c.sha parentSha) m)
    m

/-- The links component of pass 2 alone. -/
def pass2Links (commits : List Commit) : List Link :=
  commits.foldl
    (fun ls c => ls ++ c.parents.map (fun parentSha => { source := c.sha, target := parentSha }))
    []

/-- The state of the branch-propagation pass: the node map together with the
single `visited` set shared by every seed. -/
structure PropState where
  m : List (String × Node)
  visited : List String
deriving Repr

/-- `propagateBranchInfo(sha, branches)`: return when the sha was already
visited or the branch list is empty; otherwise mark the sha visited, union the
branches into the node's branch set, and recurse into every parent sha.  The
source recursion terminates because `visited` grows on every effective call;
the embedding makes that explicit with a fuel argument, and `runPropagation`
passes fuel exceeding the number of node-map keys, which bounds the depth of
every effective call chain. -/
def propagateBranchInfo : Nat → PropState → String → List String → PropState
  | 0, st, _, _ => st
  | Nat.succ fuel, st, sha, branches =>
    if sha ∈ st.visited ∨ branches = [] then st
    else
      let visited1 := st.visited ++ [sha]
      match jsMapGet st.m sha with
      | none => { m := st.m, visited := visited1 }
      | some node =>
        let newBranches := jsSetOfList (node.branches ++ branches)
        let m1 := jsMapSet st.m sha { node with branches := newBranches }
        node.parentShas.foldl
          (fun acc parentSha => propagateBranchInfo fuel acc parentSha branches)
          { m := m1, visited := visited1 }

/-- Pass 3 of `buildGraphFromCommits`: seed `propagateBranchInfo` from every
node (in map insertion order) that carries a non-empty branch list at the time
it is reached. -/
def runPropagation (m : List (String × Node)) : List (String × Node) :=
  ((m.map Prod.fst).foldl
    (fun (st : PropState) sha =>
      match jsMapGet st.m sha with
      | none => st
      | some node =>
        if node.branches = [] then st
        else propagateBranchInfo (m.length + 1) st sha node.branches)
    { m := m, visited := [] }).m

/-- Pass 4 of `buildGraphFromCommits`: merge/split classification. -/
def classifyNode (n : Node) : Node :=
  { n with
    isMerge := decide (1 < n.parentShas.length)
    isSplit := decide (1 < n.childShas.length) }

/-- `buildGraphFromCommits(commits, commitToBranches)`. -/
def buildGraphFromCommits (commits : List Commit)
    (commitToBranches : List (String × List String)) : Graph :=
  let m1 := pass1 commitToBranches commits
  let p2 := pass2 commits m1
  let m3 := runPropagation p2.1
  let m4 := m3.map (fun e => (e.1, classifyNode e.2))
  { nodes := m4.map Prod.snd, links := p2.2 }

/-- The mutable state of the commit-collection loop of the endpoint handler:
`allCommits`, `seen`, `commitToBranches`, `perBranchCounts`. -/
structure CollectState where
  allCommits : List Commit
  seen : List String
  commitToBranches : List (String × List String)
  perBranchCounts : List (String × Nat)
deriving Repr, DecidableEq

/-- Record branch membership for one commit sha:
`(commitToBranches.get(sha) || new Set()).add(branchName)` then `set`. -/
def ctbAdd (ctb : List (String × List String)) (sha branchName : String) :
    List (String × List String) :=
  jsMapSet ctb sha (jsSetAdd ((jsMapGet ctb sha).getD []) branchName)

/-- The `for (const c of pageData)` loop of the collector.  The Bool component
is `branchSawExistingSHA`.  Every commit records branch membership; a commit
not seen before is accepted into `allCommits`, `seen`, and its branch's
counter; the loop breaks as soon as `allCommits.length >= maxCommits`. -/
def processPage (maxCommits : Int) (branchName : String) :
    List Commit → CollectState → Bool → CollectState × Bool
  | [], st, saw => (st, saw)
  | c :: rest, st, saw =>
    let alreadySeen := c.sha ∈ st.seen
    let st1 : CollectState :=
      { st with commitToBranches := ctbAdd st.commitToBranches c.sha branchName }
    let stepped : CollectState × Bool :=
      if alreadySeen then (st1, true)
      else
        ({ st1 with
            allCommits := st1.allCommits ++ [c]
            seen := st1.seen ++ [c.sha]
            perBranchCounts :=
              jsMapSet st1.perBranchCounts branchName
                ((jsMapGet st1.perBranchCounts branchName).getD 0 + 1) },
         saw)
    if maxCommits ≤ (stepped.1.allCommits.length : Int) then stepped
    else processPage maxCommits branchName rest stepped.1 stepped.2

/-- The `while (true)` paging loop for one branch.  The provider's successive
pages are given as a list; past its end every fetch returns the empty page.
The loop breaks when the global count has reached `maxCommits`, on an empty
page, after a page shorter than 100, or once an already-seen sha appeared. -/
def branchLoop (maxCommits : Int) (branchName : String) :
    List (List Commit) → CollectState → CollectState
  | [], st => st
  | pageData :: rest, st =>
    if maxCommits ≤ (st.allCommits.length : Int) then st
    else if pageData.isEmpty then st
    else
      let r := processPage maxCommits branchName pageData st false
      if r.2 = true ∨ pageData.length < 100 then r.1
      else branchLoop maxCommits branchName rest r.1

/-- The `for (const branchName of branchTips)` loop: initialise the branch's
counter to 0, run its paging loop, and break out of the whole loop once the
global count has reached `maxCommits` (the Bool accumulator component). -/
def collectCommits (maxCommits : Int) (branchTips : List String)
    (provider : String → List (List Commit)) : CollectState :=
  (branchTips.foldl
    (fun acc branchName =>
      if acc.2 then acc
      else
        let st0 : CollectState :=
          { acc.1 with perBranchCounts := jsMapSet acc.1.perBranchCounts branchName 0 }
        let st1 := branchLoop maxCommits branchName (provider branchName) st0
        (st1, decide (maxCommits ≤ (st1.allCommits.length : Int))))
    ({ allCommits := [], seen := [], commitToBranches := [], perBranchCounts := [] },
     false)).1

/-- `uniqueBySha` of the handler: a map keyed by sha, then its values. -/
def uniqueBySha (commits : List Commit) : List Commit :=
  (commits.foldl (fun m c => jsMapSet m c.sha c) []).map Prod.snd

/-- The batched fetch loop of `ensureParents`.  The source fetches the pending
shas in `Promise.all` batches of 10 and checks `fetched >= maxFetch` after each
batch; the embedding walks the pending list one sha at a time carrying the
position inside the current batch and applies the break exactly at batch
boundaries.  A failed fetch (`none`) contributes nothing. -/
def fetchLoop (fetchCommit : String → Option Commit) (maxFetch : Nat) :
    List String → Nat → List (String × Commit) × Nat → List (String × Commit) × Nat
  | [], _, acc => acc
  | sha :: rest, i, acc =>
    let acc1 :=
      match fetchCommit sha with
      | none => acc
      | some commit =>
        if jsMapHas acc.1 commit.sha then acc
        else (jsMapSet acc.1 commit.sha commit, acc.2 + 1)
    if i + 1 == 10 then
      if maxFetch ≤ acc1.2 then acc1
      else fetchLoop fetchCommit maxFetch rest 0 acc1
    else fetchLoop fetchCommit maxFetch rest (i + 1) acc1

/-- The missing-parent set of `ensureParents`: parent shas of the initial
commits that are truthy, not already keys of `seen`, in first-reference
order without duplicates. -/
def missingParentsOf (initialCommits : List Commit)
    (seen : List (String × Commit)) : List String :=
  initialCommits.foldl
    (fun s c =>
      c.parents.foldl
        (fun s p => if p ≠ "" ∧ jsMapHas seen p = false ∧ p ∉ s then s ++ [p] else s)
        s)
    []

/-- `ensureParents(initialCommits, owner, repo, maxFetch)`: seed a sha-keyed
map from the initial commits, compute the missing parents, cap them at
`min(maxFetch, 200)`, fetch them in batches, and return the map's values. -/
def ensureParents (initialCommits : List Commit)
    (fetchCommit : String → Option Commit) (maxFetch : Nat) : List Commit :=
  let seen := initialCommits.foldl (fun m c => jsMapSet m c.sha c) []
  let missingParents := missingParentsOf initialCommits seen
  let parentsToFetch := missingParents.take (min maxFetch 200)
  (fetchLoop fetchCommit maxFetch parentsToFetch 0 (seen, 0)).1.map Prod.snd

/-- The stats block computed by the handler after `buildGraphFromCommits`. -/
structure Stats where
  totalCommits : Nat
  pullRequests : Nat
  splitCommits : Nat
  authors : Nat
  branchCounts : List (String × Nat)
deriving Repr, DecidableEq

/-- The stats object: counts recomputed from the finished graph, including the
per-selected-branch node counts filled into `stats.branchCounts`. -/
def computeStats (g : Graph) (branchTips : List String) : Stats :=
  { totalCommits := g.nodes.length
    pullRequests := (g.nodes.filter (fun n => n.isMerge)).length
    splitCommits := (g.nodes.filter (fun n => n.isSplit)).length
    authors :=
      (jsSetOfList ((g.nodes.map (fun n => n.author)).filter (fun a => a != ""))).length
    branchCounts :=
      branchTips.foldl
        (fun bc branch =>
          jsMapSet bc branch ((g.nodes.filter (fun n => n.branches.contains branch)).length))
        [] }

/-- `MAX_PARENT_FETCH` of the handler. -/
def MAX_PARENT_FETCH : Nat := 200

/-- The successful path of the `/api/graph/:owner/:repo` handler from the
selected branch list onward: collect commits per branch, de-duplicate by sha,
expand ancestors, build the graph, and recompute the stats from it. -/
def apiGraph (maxCommits : Int) (branchTips : List String)
    (provider : String → List (List Commit))
    (fetchCommit : String → Option Commit) : Graph × Stats :=
  let st := collectCommits maxCommits branchTips provider
  let uniqueCommits := uniqueBySha st.allCommits
  let expandedCommits := ensureParents uniqueCommits fetchCommit MAX_PARENT_FETCH
  let graph := buildGraphFromCommits expandedCommits st.commitToBranches
  (graph, computeStats graph branchTips)

/-- The invariant tying the pass-2 node map to the processed front segment
`done` of `commits`: which keys have entries, their ids, the exact membership
of every child set, the fields of commit-backed nodes, and the fields of
placeholder nodes (whose branch list is the one inherited from the first
commit that referenced them as a parent). -/
structure Pass2Inv (commits : List Commit) (ctb : List (String × List String))
    (done : List Commit) (m : List (String × Node)) : Prop where
  entry_iff : ∀ k, (jsMapGet m k).isSome = true
      ↔ (k ∈ commits.map (fun c => c.sha) ∨ ∃ c ∈ done, k ∈ c.parents)
  id_eq : ∀ k n, jsMapGet m k = some n → n.id = k
  child_iff : ∀ k n, jsMapGet m k = some n →
      ∀ x, x ∈ n.childShas ↔ ∃ c ∈ done, c.sha = x ∧ k ∈ c.parents
  commit_fields : ∀ k n, jsMapGet m k = some n →
      ∀ c, commits.find? (fun c2 => c2.sha == k) = some c →
      n.author = nodeAuthor c ∧ n.message = c.message ∧ n.date = c.date ∧
        n.parentShas = c.parents ∧ n.branches = ctbGet ctb c.sha
  ph_fields : ∀ k n, jsMapGet m k = some n → k ∉ commits.map (fun c => c.sha) →
      n.author = "" ∧ n.message = "(parent)" ∧ n.date = "" ∧ n.parentShas = [] ∧
        ∃ c, done.find? (fun c2 => decide (k ∈ c2.parents)) = some c ∧
          n.branches = ctbGet ctb c.sha

/-- The relation between node maps before and after branch propagation: same
keys, every field preserved except that branch lists may grow. -/
def BranchExt (m1 m2 : List (String × Node)) : Prop :=
  (∀ k, (jsMapGet m1 k).isSome = (jsMapGet m2 k).isSome) ∧
  ∀ k n1 n2, jsMapGet m1 k = some n1 → jsMapGet m2 k = some n2 →
    n2.id = n1.id ∧ n2.author = n1.author ∧ n2.message = n1.message ∧
      n2.date = n1.date ∧ n2.parentShas = n1.parentShas ∧
      n2.childShas = n1.childShas ∧ ∀ b ∈ n1.branches, b ∈ n2.branches

/-- Helper to build concrete commits whose optional fields are all absent. -/
def mkCommit (sha : String) (parents : List String) : Commit :=
  { sha := sha
    authorName := ""
    authorLogin := ""
    message := ""
    date := ""
    parents := parents }

/-- Tip commit of branch b1 in the concrete propagation scenario. -/
def commitX : Commit :=
  { mkCommit "X" ["P"] with authorName := "alice", message := "mx", date := "d1" }

/-- Root commit shared by both branches in the concrete propagation scenario. -/
def commitP : Commit := mkCommit "P" []

/-- Tip commit of branch b2 in the concrete propagation scenario. -/
def commitY : Commit := mkCommit "Y" ["P"]

/-- Two-branch provider: b1 lists X then the root P; b2 lists only its tip Y
(the page for b2 stops before reaching P). -/
def providerTwoBranch : String → List (List Commit) := fun b =>
  if b = "b1" then [[commitX, commitP]]
  else if b = "b2" then [[commitY]]
  else []

/-- Provider whose first branch alone can exhaust the whole global budget. -/
def providerGreedy : String → List (List Commit) := fun b =>
  if b = "b1" then
    [[mkCommit "c1" [], mkCommit "c2" [], mkCommit "c3" [], mkCommit "c4" []]]
  else if b = "b2" then [[mkCommit "c5" []]]
  else []

/-- A single-commit fetcher that fails on p1 and succeeds on p2. -/
def fetchOneOfTwo : String → Option Commit := fun s =>
  if s = "p2" then some (mkCommit "p2" []) else none

/-! ### Association-list map lemmas -/

theorem jsMapGet_cons {α : Type} (k1 : String) (v : α) (m : List (String × α))
    (k : String) :
    jsMapGet ((k1, v) :: m) k = if k1 = k then some v else jsMapGet m k := by
  by_cases h : k1 = k
  · simp [jsMapGet, List.find?_cons, h]
  · simp [jsMapGet, List.find?_cons, h]

theorem jsMapHas_cons {α : Type} (k1 : String) (v : α) (m : List (String × α))
    (k : String) :
    jsMapHas ((k1, v) :: m) k = (k1 == k || jsMapHas m k) := by
  by_cases h : k1 = k <;> simp [jsMapHas, jsMapGet_cons, h]

theorem jsMapHas_iff_mem {α : Type} (m : List (String × α)) (k : String) :
    jsMapHas m k = true ↔ k ∈ m.map Prod.fst := by
  simp only [jsMapHas, jsMapGet]
  rw [show ((m.find? fun p => p.1 == k).map Prod.snd).isSome
        = (m.find? fun p => p.1 == k).isSome from by
      cases m.find? fun p => p.1 == k <;> rfl]
  rw [List.find?_isSome]
  constructor
  · rintro ⟨p, hp, he⟩
    exact List.mem_map.mpr ⟨p, hp, by simpa using he⟩
  · intro h
    rcases List.mem_map.mp h with ⟨p, hp, he⟩
    exact ⟨p, hp, by simpa using he⟩

theorem jsMapGet_isSome_iff {α : Type} (m : List (String × α)) (k : String) :
    (jsMapGet m k).isSome = true ↔ k ∈ m.map Prod.fst :=
  jsMapHas_iff_mem m k

theorem jsMapGet_eq_none_iff {α : Type} (m : List (String × α)) (k : String) :
    jsMapGet m k = none ↔ k ∉ m.map Prod.fst := by
  rw [← jsMapGet_isSome_iff]
  cases jsMapGet m k <;> simp

theorem jsMapGet_map_update_ne {α : Type} (k : String) (v : α) (q : String)
    (hq : q ≠ k) :
    ∀ m : List (String × α),
      jsMapGet (m.map (fun p => if p.1 == k then (k, v) else p)) q = jsMapGet m q := by
  intro m
  induction m with
  | nil => rfl
  | cons p m ih =>
    by_cases h : p.1 = k
    · have hne : ¬ (k = q) := fun hc => hq hc.symm
      rw [show (p :: m).map (fun p => if p.1 == k then (k, v) else p)
            = (k, v) :: m.map (fun p => if p.1 == k then (k, v) else p) from by
          simp [h]]
      rw [jsMapGet_cons, if_neg hne, ih]
      cases p with
      | mk p1 p2 =>
        simp only at h
        rw [h, jsMapGet_cons, if_neg hne]
    · rw [show (p :: m).map (fun p => if p.1 == k then (k, v) else p)
            = p :: m.map (fun p => if p.1 == k then (k, v) else p) from by
          simp [h]]
      cases p with
      | mk p1 p2 =>
        simp only at h
        rw [jsMapGet_cons, jsMapGet_cons, ih]

theorem jsMapGet_set {α : Type} (m : List (String × α)) (k : String) (v : α)
    (q : String) :
    jsMapGet (jsMapSet m k v) q = if k = q then some v else jsMapGet m q := by
  induction m with
  | nil =>
    simp [jsMapSet, jsMapHas, jsMapGet, jsMapGet_cons]
  | cons p m ih =>
    cases p with
    | mk k1 v1 =>
      by_cases h1 : k1 = k
      · have hhas : jsMapHas ((k1, v1) :: m) k = true := by
          rw [jsMapHas_cons]; simp [h1]
        rw [jsMapSet, if_pos hhas]
        rw [show ((k1, v1) :: m).map (fun p => if p.1 == k then (k, v) else p)
              = (k, v) :: m.map (fun p => if p.1 == k then (k, v) else p) from by
            simp [h1]]
        rw [jsMapGet_cons]
        by_cases hq : k = q
        · rw [if_pos hq, if_pos hq]
        · rw [if_neg hq, if_neg hq,
            jsMapGet_map_update_ne k v q (fun hc => hq hc.symm) m, jsMapGet_cons,
            h1, if_neg hq]
      · rw [jsMapSet, jsMapHas_cons]
        by_cases h2 : jsMapHas m k = true
        · rw [show (k1 == k || jsMapHas m k) = true from by simp [h2]]
          simp only [ite_true]
          rw [show ((k1, v1) :: m).map (fun p => if p.1 == k then (k, v) else p)
                = (k1, v1) :: m.map (fun p => if p.1 == k then (k, v) else p) from by
              simp [h1]]
          rw [jsMapGet_cons]
          by_cases hq : k1 = q
          · have hkq : ¬ (k = q) := fun hc => h1 (hc ▸ hq.symm ▸ rfl)
            rw [if_pos hq, if_neg hkq, jsMapGet_cons, if_pos hq]
          · rw [if_neg hq]
            have := ih
            rw [jsMapSet, if_pos h2] at this
            rw [this, jsMapGet_cons, if_neg hq]
        · rw [show (k1 == k || jsMapHas m k) = false from by
              simp [h1, h2]]
          simp only [Bool.false_eq_true, ite_false]
          rw [List.cons_append, jsMapGet_cons]
          by_cases hq : k1 = q
          · have hkq : ¬ (k = q) := fun hc => h1 (hc ▸ hq.symm ▸ rfl)
            rw [if_pos hq, if_neg hkq, jsMapGet_cons, if_pos hq]
          · rw [if_neg hq]
            have := ih
            rw [jsMapSet, if_neg (by simp [h2])] at this
            rw [this, jsMapGet_cons, if_neg hq]

theorem jsMapGet_set_self {α : Type} (m : List (String × α)) (k : String) (v : α) :
    jsMapGet (jsMapSet m k v) k = some v := by
  rw [jsMapGet_set, if_pos rfl]

theorem jsMapGet_set_ne {α : Type} (m : List (String × α)) (k : String) (v : α)
    (q : String) (h : k ≠ q) :
    jsMapGet (jsMapSet m k v) q = jsMapGet m q := by
  rw [jsMapGet_set, if_neg h]

theorem jsMapSet_keys {α : Type} (m : List (String × α)) (k : String) (v : α) :
    (jsMapSet m k v).map Prod.fst =
      if jsMapHas m k then m.map Prod.fst else m.map Prod.fst ++ [k] := by
  by_cases h : jsMapHas m k = true
  · rw [jsMapSet, if_pos h, if_pos h, List.map_map]
    refine List.map_congr_left ?_
    intro p _
    by_cases hp : p.1 = k <;> simp [hp]
  · rw [jsMapSet, if_neg h, if_neg h, List.map_append]
    rfl

theorem jsMapSet_keys_nodup {α : Type} (m : List (String × α)) (k : String) (v : α)
    (h : (m.map Prod.fst).Nodup) : ((jsMapSet m k v).map Prod.fst).Nodup := by
  rw [jsMapSet_keys]
  by_cases hh : jsMapHas m k = true
  · rw [if_pos hh]; exact h
  · rw [if_neg hh]
    rw [List.nodup_append]
    refine ⟨h, List.nodup_singleton k, ?_⟩
    intro x hx hk
    have hxk : x = k := List.mem_singleton.mp hk
    exact hh ((jsMapHas_iff_mem m k).mpr (hxk ▸ hx))

theorem mem_of_jsMapGet_eq_some {α : Type} {m : List (String × α)} {k : String}
    {v : α} (h : jsMapGet m k = some v) : (k, v) ∈ m := by
  rw [jsMapGet] at h
  cases hf : m.find? fun p => p.1 == k with
  | none => rw [hf] at h; simp at h
  | some p =>
    rw [hf] at h
    have hp := List.find?_some hf
    have hm := List.mem_of_find?_eq_some hf
    have h1 : p.1 = k := by simpa using hp
    have h2 : p.2 = v := by simpa using h
    have : p = (k, v) := by
      cases p; simp only at h1 h2; rw [h1, h2]
    rwa [this] at hm

theorem jsMapGet_eq_some_of_mem {α : Type} {m : List (String × α)} {k : String}
    {v : α} (hnd : (m.map Prod.fst).Nodup) (h : (k, v) ∈ m) :
    jsMapGet m k = some v := by
  induction m with
  | nil => cases h
  | cons p m ih =>
    cases p with
    | mk k1 v1 =>
      rw [List.map_cons, List.nodup_cons] at hnd
      rcases List.mem_cons.mp h with heq | hm
      · injection heq with h1 h2
        subst h1
        subst h2
        rw [jsMapGet_cons, if_pos rfl]
      · have hk : k1 ≠ k := by
          intro hc
          exact hnd.1 (hc ▸ List.mem_map.mpr ⟨(k, v), hm, rfl⟩)
        rw [jsMapGet_cons, if_neg hk]
        exact ih hnd.2 hm

theorem mem_values_iff_jsMapGet {α : Type} {m : List (String × α)} {v : α}
    (hnd : (m.map Prod.fst).Nodup) :
    v ∈ m.map Prod.snd ↔ ∃ k, jsMapGet m k = some v := by
  constructor
  · intro h
    rcases List.mem_map.mp h with ⟨p, hp, he⟩
    refine ⟨p.1, jsMapGet_eq_some_of_mem hnd ?_⟩
    have hpv : (p.1, v) = p := by
      cases p with
      | mk a b =>
        simp only at he
        rw [he]
    rwa [hpv]
  · rintro ⟨k, hk⟩
    exact List.mem_map.mpr ⟨(k, v), mem_of_jsMapGet_eq_some hk, rfl⟩

theorem jsMapSet_fresh {α : Type} {m : List (String × α)} {k : String} (v : α)
    (h : jsMapHas m k = false) : jsMapSet m k v = m ++ [(k, v)] := by
  rw [jsMapSet, if_neg (by simp [h])]

theorem foldl_jsMapSet_fresh {α β : Type} (key : β → String) (val : β → α) :
    ∀ (cs : List β) (m : List (String × α)),
      (∀ c ∈ cs, key c ∉ m.map Prod.fst) → (cs.map key).Nodup →
      cs.foldl (fun m c => jsMapSet m (key c) (val c)) m
        = m ++ cs.map (fun c => (key c, val c)) := by
  intro cs
  induction cs with
  | nil => intro m _ _; simp
  | cons c cs ih =>
    intro m hfresh hnd
    rw [List.map_cons, List.nodup_cons] at hnd
    rw [List.foldl_cons]
    have h1 : jsMapHas m (key c) = false := by
      cases hh : jsMapHas m (key c) with
      | false => rfl
      | true => exact absurd ((jsMapHas_iff_mem m (key c)).mp hh) (hfresh c (List.mem_cons_self c cs))
    rw [jsMapSet_fresh (val c) h1]
    have hfresh2 : ∀ c2 ∈ cs, key c2 ∉ (m ++ [(key c, val c)]).map Prod.fst := by
      intro c2 hc2
      rw [List.map_append, List.mem_append]
      rintro (h | h)
      · exact hfresh c2 (List.mem_cons_of_mem c hc2) h
      · have hk : key c2 = key c := by simpa using h
        exact hnd.1 (hk ▸ List.mem_map.mpr ⟨c2, hc2, rfl⟩)
    rw [ih (m ++ [(key c, val c)]) hfresh2 hnd.2]
    simp

/-! ### JavaScript set lemmas -/

theorem mem_jsSetAdd {s : List String} {x y : String} :
    y ∈ jsSetAdd s x ↔ y ∈ s ∨ y = x := by
  rw [jsSetAdd]
  by_cases h : x ∈ s
  · rw [if_pos h]
    constructor
    · exact Or.inl
    · rintro (hy | rfl)
      · exact hy
      · exact h
  · rw [if_neg h]
    simp

theorem jsSetAdd_nodup {s : List String} (h : s.Nodup) (x : String) :
    (jsSetAdd s x).Nodup := by
  rw [jsSetAdd]
  by_cases hx : x ∈ s
  · rwa [if_pos hx]
  · rw [if_neg hx, List.nodup_append]
    exact ⟨h, List.nodup_singleton x, fun y hy hx2 =>
      absurd (List.mem_singleton.mp hx2 ▸ hy) hx⟩

theorem mem_foldl_jsSetAdd {y : String} :
    ∀ (l s : List String), y ∈ l.foldl jsSetAdd s ↔ y ∈ s ∨ y ∈ l := by
  intro l
  induction l with
  | nil => intro s; simp
  | cons x l ih =>
    intro s
    rw [List.foldl_cons, ih, mem_jsSetAdd]
    constructor
    · rintro ((h | rfl) | h)
      · exact Or.inl h
      · exact Or.inr (List.mem_cons_self _ _)
      · exact Or.inr (List.mem_cons_of_mem x h)
    · rintro (h | h)
      · exact Or.inl (Or.inl h)
      · rcases List.mem_cons.mp h with rfl | h
        · exact Or.inl (Or.inr rfl)
        · exact Or.inr h

theorem foldl_jsSetAdd_nodup :
    ∀ (l s : List String), s.Nodup → (l.foldl jsSetAdd s).Nodup := by
  intro l
  induction l with
  | nil => intro s h; exact h
  | cons x l ih =>
    intro s h
    rw [List.foldl_cons]
    exact ih _ (jsSetAdd_nodup h x)

theorem mem_jsSetOfList {l : List String} {y : String} :
    y ∈ jsSetOfList l ↔ y ∈ l := by
  rw [jsSetOfList, mem_foldl_jsSetAdd]
  simp

theorem jsSetOfList_nodup (l : List String) : (jsSetOfList l).Nodup :=
  foldl_jsSetAdd_nodup l [] List.nodup_nil

theorem jsSetOfList_length_eq_card (l : List String) :
    (jsSetOfList l).length = l.toFinset.card := by
  have h1 : (jsSetOfList l).toFinset = l.toFinset := by
    ext x
    simp [List.mem_toFinset, mem_jsSetOfList]
  rw [← List.toFinset_card_of_nodup (jsSetOfList_nodup l), h1]

/-! ### Splitting pass 2 into its map and links components -/

theorem pass2_inner_split (csha : String) (ps : List String) :
    ∀ (acc : List (String × Node) × List Link),
      ps.foldl
        (fun acc parentSha =>
          (addParentEdge acc.1 csha parentSha,
           acc.2 ++ [{ source := csha, target := parentSha }]))
        acc
      = (ps.foldl (fun m parentSha => addParentEdge m csha parentSha) acc.1,
         acc.2 ++ ps.map (fun parentSha => { source := csha, target := parentSha })) := by
  induction ps with
  | nil => intro acc; simp
  | cons p ps ih =>
    intro acc
    rw [List.foldl_cons, ih, List.foldl_cons]
    simp

theorem pass2_foldl_split :
    ∀ (commits : List Commit) (m : List (String × Node)) (ls : List Link),
      commits.foldl
        (fun acc c =>
          c.parents.foldl
            (fun acc parentSha =>
              (addParentEdge acc.1 c.sha parentSha,
               acc.2 ++ [{ source := c.sha, target := parentSha }]))
            acc)
        (m, ls)
      = (pass2Map commits m,
         ls ++ commits.flatMap
           (fun c => c.parents.map (fun p => { source := c.sha, target := p }))) := by
  intro commits
  induction commits with
  | nil => intro m ls; simp [pass2Map]
  | cons c cs ih =>
    intro m ls
    rw [List.foldl_cons, pass2_inner_split, ih]
    simp [pass2Map]

theorem pass2_fst (commits : List Commit) (m : List (String × Node)) :
    (pass2 commits m).1 = pass2Map commits m := by
  rw [pass2, pass2_foldl_split]

theorem pass2_snd (commits : List Commit) (m : List (String × Node)) :
    (pass2 commits m).2
      = commits.flatMap (fun c => c.parents.map (fun p => { source := c.sha, target := p })) := by
  rw [pass2, pass2_foldl_split]
  simp

/-! ### Pass 1 characterization -/

theorem jsMapGet_map_entries {α β : Type} (key : β → String) (val : β → α) :
    ∀ (cs : List β) (k : String),
      jsMapGet (cs.map (fun c => (key c, val c))) k
        = (cs.find? (fun c => key c == k)).map val := by
  intro cs
  induction cs with
  | nil => intro k; rfl
  | cons c cs ih =>
    intro k
    rw [List.map_cons, jsMapGet_cons, List.find?_cons]
    by_cases h : key c = k
    · simp [h]
    · rw [if_neg h, ih]
      rw [show (key c == k) = false from by simp [h]]

theorem pass1_eq (ctb : List (String × List String)) (commits : List Commit)
    (hnd : (commits.map (fun c => c.sha)).Nodup) :
    pass1 ctb commits = commits.map (fun c => (c.sha, initNode ctb c)) := by
  rw [pass1,
    foldl_jsMapSet_fresh (fun c => c.sha) (initNode ctb) commits []
      (by intro c hc; simp) hnd]
  simp

theorem pass1_get (ctb : List (String × List String)) (commits : List Commit)
    (hnd : (commits.map (fun c => c.sha)).Nodup) (k : String) :
    jsMapGet (pass1 ctb commits) k
      = (commits.find? (fun c => c.sha == k)).map (initNode ctb) := by
  rw [pass1_eq ctb commits hnd, jsMapGet_map_entries (fun c => c.sha) (initNode ctb)]

theorem find?_sha_self {commits : List Commit}
    (hnd : (commits.map (fun c => c.sha)).Nodup) {c : Commit} (hc : c ∈ commits) :
    commits.find? (fun c2 => c2.sha == c.sha) = some c := by
  induction commits with
  | nil => cases hc
  | cons d cs ih =>
    rw [List.map_cons, List.nodup_cons] at hnd
    rcases List.mem_cons.mp hc with heq | hm
    · subst heq
      rw [List.find?_cons_of_pos _ (by simp)]
    · by_cases h : d.sha = c.sha
      · exact absurd (h ▸ List.mem_map.mpr ⟨c, hm, rfl⟩) hnd.1
      · rw [List.find?_cons_of_neg _ (by simp [h])]
        exact ih hnd.2 hm

theorem find?_sha_spec {commits : List Commit} {k : String} {c : Commit}
    (h : commits.find? (fun c2 => c2.sha == k) = some c) : c ∈ commits ∧ c.sha = k :=
  ⟨List.mem_of_find?_eq_some h, by simpa using List.find?_some h⟩

theorem find?_sha_isSome_iff {commits : List Commit} {k : String} :
    (commits.find? (fun c2 => c2.sha == k)).isSome = true
      ↔ k ∈ commits.map (fun c => c.sha) := by
  rw [List.find?_isSome]
  constructor
  · rintro ⟨c, hc, he⟩
    exact List.mem_map.mpr ⟨c, hc, by simpa using he⟩
  · intro h
    rcases List.mem_map.mp h with ⟨c, hc, he⟩
    exact ⟨c, hc, by simpa using he⟩

theorem find?_sha_eq_none_iff {commits : List Commit} {k : String} :
    commits.find? (fun c2 => c2.sha == k) = none
      ↔ k ∉ commits.map (fun c => c.sha) := by
  rw [← find?_sha_isSome_iff]
  cases commits.find? fun c2 => c2.sha == k <;> simp

/-! ### Pointwise description of addParentEdge -/

theorem jsMapSet_map_update_of_fresh {α : Type} {m : List (String × α)} {k : String}
    (h : jsMapHas m k = false) (v : α) :
    m.map (fun p => if p.1 == k then (k, v) else p) = m := by
  have hk : k ∉ m.map Prod.fst := by
    intro hc
    have hh := (jsMapHas_iff_mem m k).mpr hc
    rw [h] at hh
    simp at hh
  conv_rhs => rw [← List.map_id m]
  refine List.map_congr_left ?_
  intro p hp
  have hne : ¬ (p.1 = k) := fun he => hk (he ▸ List.mem_map.mpr ⟨p, hp, rfl⟩)
  simp [hne]

theorem jsMapSet_set_same {α : Type} (m : List (String × α)) (k : String) (v w : α) :
    jsMapSet (jsMapSet m k v) k w = jsMapSet m k w := by
  by_cases h : jsMapHas m k = true
  · have h2 : jsMapHas (jsMapSet m k v) k = true := by
      rw [jsMapHas, jsMapGet_set_self]; rfl
    rw [jsMapSet, if_pos h2, jsMapSet, if_pos h, jsMapSet, if_pos h, List.map_map]
    refine List.map_congr_left ?_
    intro p _
    by_cases hp : p.1 = k <;> simp [hp]
  · have hf : jsMapHas m k = false := by
      cases hh : jsMapHas m k
      · rfl
      · exact absurd hh h
    have h2 : jsMapHas (jsMapSet m k v) k = true := by
      rw [jsMapHas, jsMapGet_set_self]; rfl
    rw [jsMapSet_fresh v hf, jsMapSet_fresh w hf, jsMapSet, if_pos ?_]
    · rw [List.map_append, jsMapSet_map_update_of_fresh hf]
      simp
    · rw [← jsMapSet_fresh v hf]
      exact h2

theorem addParentEdge_of_some {m : List (String × Node)} {cs ps : String} {pn : Node}
    (h : jsMapGet m ps = some pn) :
    addParentEdge m cs ps =
      if cs ∈ pn.childShas then m
      else jsMapSet m ps { pn with childShas := pn.childShas ++ [cs] } := by
  have hhas : jsMapHas m ps = true := by rw [jsMapHas, h]; rfl
  simp only [addParentEdge, hhas, if_true, h]

theorem addParentEdge_of_none {m : List (String × Node)} {cs ps : String}
    (h : jsMapGet m ps = none) :
    addParentEdge m cs ps =
      jsMapSet m ps
        { placeholderNode ps (inheritedOf m cs) with childShas := [cs] } := by
  have hhas : jsMapHas m ps = false := by rw [jsMapHas, h]; rfl
  simp only [addParentEdge, hhas, Bool.false_eq_true, if_false,
    jsMapGet_set_self]
  rw [if_neg (show cs ∉ (placeholderNode ps (inheritedOf m cs)).childShas from by
    simp [placeholderNode])]
  rw [jsMapSet_set_same]
  simp [placeholderNode]

theorem addParentEdge_get_ne {m : List (String × Node)} {cs ps q : String}
    (hq : ps ≠ q) : jsMapGet (addParentEdge m cs ps) q = jsMapGet m q := by
  cases h : jsMapGet m ps with
  | some pn =>
    rw [addParentEdge_of_some h]
    by_cases hmem : cs ∈ pn.childShas
    · rw [if_pos hmem]
    · rw [if_neg hmem, jsMapGet_set_ne _ _ _ _ hq]
  | none =>
    rw [addParentEdge_of_none h, jsMapGet_set_ne _ _ _ _ hq]

theorem addParentEdge_get_self_some {m : List (String × Node)} {cs ps : String}
    {pn : Node} (h : jsMapGet m ps = some pn) :
    jsMapGet (addParentEdge m cs ps) ps =
      some (if cs ∈ pn.childShas then pn
            else { pn with childShas := pn.childShas ++ [cs] }) := by
  rw [addParentEdge_of_some h]
  by_cases hmem : cs ∈ pn.childShas
  · rw [if_pos hmem, if_pos hmem, h]
  · rw [if_neg hmem, if_neg hmem, jsMapGet_set_self]

theorem addParentEdge_get_self_none {m : List (String × Node)} {cs ps : String}
    (h : jsMapGet m ps = none) :
    jsMapGet (addParentEdge m cs ps) ps =
      some { placeholderNode ps (inheritedOf m cs) with childShas := [cs] } := by
  rw [addParentEdge_of_none h, jsMapGet_set_self]

/-! ### Characterizing the inner parent loop of pass 2 -/

theorem innerFold_get (cs : String) :
    ∀ (ps : List String) (m : List (String × Node)) (cnode : Node),
      jsMapGet m cs = some cnode → ∀ k,
      jsMapGet (ps.foldl (fun m parentSha => addParentEdge m cs parentSha) m) k =
        (if k ∈ ps then
          match jsMapGet m k with
          | some n => some { n with childShas :=
              if cs ∈ n.childShas then n.childShas else n.childShas ++ [cs] }
          | none => some { id := k, author := "", message := "(parent)", date := "",
                           branches := cnode.branches, parentShas := [], childShas := [cs],
                           isMerge := false, isSplit := false }
        else jsMapGet m k) := by
  intro ps
  induction ps with
  | nil =>
    intro m cnode hc k
    simp
  | cons p ps ih =>
    intro m cnode hc k
    rw [List.foldl_cons]
    obtain ⟨cnode1, hc1, hbr⟩ :
        ∃ cnode1, jsMapGet (addParentEdge m cs p) cs = some cnode1 ∧
          cnode1.branches = cnode.branches := by
      by_cases hp : p = cs
      · rw [hp, addParentEdge_get_self_some hc]
        refine ⟨_, rfl, ?_⟩
        by_cases hmem : cs ∈ cnode.childShas
        · rw [if_pos hmem]
        · rw [if_neg hmem]
      · exact ⟨cnode, by rw [addParentEdge_get_ne hp]; exact hc, rfl⟩
    rw [ih (addParentEdge m cs p) cnode1 hc1 k]
    by_cases hkp : k = p
    · -- the key updated by the head step
      subst hkp
      cases hmk : jsMapGet m k with
      | some n =>
        by_cases hmem : cs ∈ n.childShas
        · by_cases hkps : k ∈ ps <;>
            simp [hkps, hmk, addParentEdge_get_self_some hmk, hmem, List.mem_cons]
        · by_cases hkps : k ∈ ps <;>
            simp [hkps, hmk, addParentEdge_get_self_some hmk, hmem, List.mem_cons]
      | none =>
        have hinh : inheritedOf m cs = cnode.branches := by
          rw [inheritedOf, hc]
        by_cases hkps : k ∈ ps <;>
          simp [hkps, hmk, addParentEdge_get_self_none hmk, placeholderNode, hinh,
            List.mem_cons]
    · -- a key untouched by the head step
      have hget : jsMapGet (addParentEdge m cs p) k = jsMapGet m k :=
        addParentEdge_get_ne (fun he => hkp he.symm)
      by_cases hkps : k ∈ ps
      · rw [if_pos hkps, if_pos (List.mem_cons.mpr (Or.inr hkps)), hget, hbr]
      · rw [if_neg hkps,
          if_neg (fun hc2 => (List.mem_cons.mp hc2).elim (fun he => hkp he) hkps),
          hget]

/-! ### The pass-2 invariant -/

theorem exists_mem_append_iff {α : Type} (P : α → Prop) (l1 l2 : List α) :
    (∃ x ∈ l1 ++ l2, P x) ↔ (∃ x ∈ l1, P x) ∨ (∃ x ∈ l2, P x) := by
  constructor
  · rintro ⟨x, hx, hP⟩
    rcases List.mem_append.mp hx with h | h
    · exact Or.inl ⟨x, h, hP⟩
    · exact Or.inr ⟨x, h, hP⟩
  · rintro (⟨x, hx, hP⟩ | ⟨x, hx, hP⟩)
    · exact ⟨x, List.mem_append.mpr (Or.inl hx), hP⟩
    · exact ⟨x, List.mem_append.mpr (Or.inr hx), hP⟩

theorem isSome_option_map {α β : Type} (f : α → β) (o : Option α) :
    (o.map f).isSome = o.isSome := by
  cases o <;> rfl

theorem pass1_inv (ctb : List (String × List String)) (commits : List Commit)
    (hnd : (commits.map (fun c => c.sha)).Nodup) :
    Pass2Inv commits ctb [] (pass1 ctb commits) := by
  have hget := pass1_get ctb commits hnd
  constructor
  · intro k
    rw [hget k, isSome_option_map, find?_sha_isSome_iff]
    constructor
    · exact Or.inl
    · rintro (h | ⟨c, hc, _⟩)
      · exact h
      · exact absurd hc (List.not_mem_nil c)
  · intro k n hmn
    rw [hget k] at hmn
    cases hf : commits.find? (fun c2 => c2.sha == k) with
    | none => rw [hf] at hmn; simp at hmn
    | some c =>
      rw [hf] at hmn
      injection hmn with hn
      rw [← hn]
      exact (find?_sha_spec hf).2
  · intro k n hmn x
    rw [hget k] at hmn
    cases hf : commits.find? (fun c2 => c2.sha == k) with
    | none => rw [hf] at hmn; simp at hmn
    | some c =>
      rw [hf] at hmn
      injection hmn with hn
      rw [← hn]
      simp [initNode]
  · intro k n hmn c hfc
    rw [hget k, hfc] at hmn
    injection hmn with hn
    rw [← hn]
    exact ⟨rfl, rfl, rfl, rfl, rfl⟩
  · intro k n hmn hknot
    rw [hget k] at hmn
    rw [find?_sha_eq_none_iff.mpr hknot] at hmn
    simp at hmn

theorem pass2_step_inv (commits : List Commit) (ctb : List (String × List String))
    (done rest : List Commit) (c : Commit) (m : List (String × Node))
    (hnd : (commits.map (fun c => c.sha)).Nodup)
    (hsplit : commits = done ++ c :: rest)
    (hinv : Pass2Inv commits ctb done m) :
    Pass2Inv commits ctb (done ++ [c])
      (c.parents.foldl (fun m parentSha => addParentEdge m c.sha parentSha) m) := by
  have hcmem : c ∈ commits := by
    rw [hsplit]; exact List.mem_append.mpr (Or.inr (List.mem_cons_self c rest))
  have hcsha : c.sha ∈ commits.map (fun c => c.sha) := List.mem_map.mpr ⟨c, hcmem, rfl⟩
  have hfind : commits.find? (fun c2 => c2.sha == c.sha) = some c :=
    find?_sha_self hnd hcmem
  obtain ⟨cnode, hc⟩ : ∃ cnode, jsMapGet m c.sha = some cnode := by
    have hs := (hinv.entry_iff c.sha).mpr (Or.inl hcsha)
    cases hmk : jsMapGet m c.sha
    · rw [hmk] at hs; simp at hs
    · exact ⟨_, rfl⟩
  have hbrc : cnode.branches = ctbGet ctb c.sha :=
    (hinv.commit_fields c.sha cnode hc c hfind).2.2.2.2
  have hchar := innerFold_get c.sha c.parents m cnode hc
  have hmaster : ∀ k,
      (k ∉ c.parents ∧
        jsMapGet (c.parents.foldl (fun m parentSha => addParentEdge m c.sha parentSha) m) k
          = jsMapGet m k) ∨
      (k ∈ c.parents ∧ ∃ n0, jsMapGet m k = some n0 ∧
        jsMapGet (c.parents.foldl (fun m parentSha => addParentEdge m c.sha parentSha) m) k
          = some { n0 with childShas :=
              if c.sha ∈ n0.childShas then n0.childShas else n0.childShas ++ [c.sha] }) ∨
      (k ∈ c.parents ∧ jsMapGet m k = none ∧
        jsMapGet (c.parents.foldl (fun m parentSha => addParentEdge m c.sha parentSha) m) k
          = some { id := k, author := "", message := "(parent)", date := "",
                   branches := cnode.branches, parentShas := [], childShas := [c.sha],
                   isMerge := false, isSplit := false }) := by
    intro k
    have hck := hchar k
    by_cases hk : k ∈ c.parents
    · cases hmk : jsMapGet m k with
      | some n0 =>
        rw [if_pos hk, hmk] at hck
        exact Or.inr (Or.inl ⟨hk, n0, rfl, hck⟩)
      | none =>
        rw [if_pos hk, hmk] at hck
        exact Or.inr (Or.inr ⟨hk, rfl, hck⟩)
    · rw [if_neg hk] at hck
      exact Or.inl ⟨hk, hck⟩
  constructor
  · -- entry_iff
    intro k
    have hex : (∃ c2 ∈ done ++ [c], k ∈ c2.parents)
        ↔ ((∃ c2 ∈ done, k ∈ c2.parents) ∨ k ∈ c.parents) := by
      rw [exists_mem_append_iff]; simp
    rcases hmaster k with ⟨hk, heq⟩ | ⟨hk, n0, hm0, heq⟩ | ⟨hk, hm0, heq⟩
    · rw [heq, hinv.entry_iff k, hex]
      constructor
      · rintro (h | h)
        · exact Or.inl h
        · exact Or.inr (Or.inl h)
      · rintro (h | h | h)
        · exact Or.inl h
        · exact Or.inr h
        · exact absurd h hk
    · refine iff_of_true (by rw [heq]; rfl) (Or.inr ?_)
      exact ⟨c, List.mem_append.mpr (Or.inr (List.mem_singleton.mpr rfl)), hk⟩
    · refine iff_of_true (by rw [heq]; rfl) (Or.inr ?_)
      exact ⟨c, List.mem_append.mpr (Or.inr (List.mem_singleton.mpr rfl)), hk⟩
  · -- id_eq
    intro k n hmn
    rcases hmaster k with ⟨hk, heq⟩ | ⟨hk, n0, hm0, heq⟩ | ⟨hk, hm0, heq⟩
    · rw [heq] at hmn; exact hinv.id_eq k n hmn
    · rw [heq] at hmn; injection hmn with hn; rw [← hn]
      exact hinv.id_eq k n0 hm0
    · rw [heq] at hmn; injection hmn with hn; rw [← hn]
  · -- child_iff
    intro k n hmn x
    have hex : (∃ c2 ∈ done ++ [c], c2.sha = x ∧ k ∈ c2.parents)
        ↔ ((∃ c2 ∈ done, c2.sha = x ∧ k ∈ c2.parents) ∨ (c.sha = x ∧ k ∈ c.parents)) := by
      rw [exists_mem_append_iff]; simp
    rcases hmaster k with ⟨hk, heq⟩ | ⟨hk, n0, hm0, heq⟩ | ⟨hk, hm0, heq⟩
    · rw [heq] at hmn
      rw [hex, hinv.child_iff k n hmn x]
      constructor
      · exact Or.inl
      · rintro (h | ⟨hx, hkp⟩)
        · exact h
        · exact absurd hkp hk
    · rw [heq] at hmn; injection hmn with hn
      rw [← hn, hex]
      rw [show ({ n0 with childShas :=
          if c.sha ∈ n0.childShas then n0.childShas else n0.childShas ++ [c.sha] } : Node).childShas
        = (if c.sha ∈ n0.childShas then n0.childShas else n0.childShas ++ [c.sha]) from rfl]
      have hold := hinv.child_iff k n0 hm0 x
      by_cases hmem : c.sha ∈ n0.childShas
      · rw [if_pos hmem, hold]
        constructor
        · exact Or.inl
        · rintro (h | ⟨hx, _⟩)
          · exact h
          · exact hold.mp (hx ▸ hmem)
      · rw [if_neg hmem]
        rw [List.mem_append, List.mem_singleton, hold]
        constructor
        · rintro (h | hx)
          · exact Or.inl h
          · exact Or.inr ⟨hx.symm, hk⟩
        · rintro (h | ⟨hx, _⟩)
          · exact Or.inl h
          · exact Or.inr hx.symm
    · rw [heq] at hmn; injection hmn with hn
      rw [← hn, hex]
      rw [show ({ id := k, author := "", message := "(parent)", date := "",
                  branches := cnode.branches, parentShas := [], childShas := [c.sha],
                  isMerge := false, isSplit := false } : Node).childShas = [c.sha] from rfl]
      have hnone : ¬ ∃ c2 ∈ done, c2.sha = x ∧ k ∈ c2.parents := by
        rintro ⟨c2, hc2, _, hkp⟩
        have hs : (jsMapGet m k).isSome = true :=
          (hinv.entry_iff k).mpr (Or.inr ⟨c2, hc2, hkp⟩)
        rw [hm0] at hs; simp at hs
      rw [List.mem_singleton]
      constructor
      · intro hx
        exact Or.inr ⟨hx.symm, hk⟩
      · rintro (h | ⟨hx, _⟩)
        · exact absurd h hnone
        · exact hx.symm
  · -- commit_fields
    intro k n hmn c2 hfind2
    have hksha : k ∈ commits.map (fun c => c.sha) := by
      rw [← find?_sha_isSome_iff, hfind2]; rfl
    rcases hmaster k with ⟨hk, heq⟩ | ⟨hk, n0, hm0, heq⟩ | ⟨hk, hm0, heq⟩
    · rw [heq] at hmn; exact hinv.commit_fields k n hmn c2 hfind2
    · rw [heq] at hmn; injection hmn with hn
      have hold := hinv.commit_fields k n0 hm0 c2 hfind2
      rw [← hn]
      exact ⟨hold.1, hold.2.1, hold.2.2.1, hold.2.2.2.1, hold.2.2.2.2⟩
    · have hs : (jsMapGet m k).isSome = true :=
        (hinv.entry_iff k).mpr (Or.inl hksha)
      rw [hm0] at hs; simp at hs
  · -- ph_fields
    intro k n hmn hknot
    rcases hmaster k with ⟨hk, heq⟩ | ⟨hk, n0, hm0, heq⟩ | ⟨hk, hm0, heq⟩
    · rw [heq] at hmn
      obtain ⟨h1, h2, h3, h4, c2, hf2, h5⟩ := hinv.ph_fields k n hmn hknot
      refine ⟨h1, h2, h3, h4, c2, ?_, h5⟩
      rw [List.find?_append, hf2]
      rfl
    · rw [heq] at hmn; injection hmn with hn
      obtain ⟨h1, h2, h3, h4, c2, hf2, h5⟩ := hinv.ph_fields k n0 hm0 hknot
      rw [← hn]
      refine ⟨h1, h2, h3, h4, c2, ?_, h5⟩
      rw [List.find?_append, hf2]
      rfl
    · rw [heq] at hmn; injection hmn with hn
      have hdnone : done.find? (fun c2 => decide (k ∈ c2.parents)) = none := by
        rw [List.find?_eq_none]
        intro c2 hc2 hp
        have hs : (jsMapGet m k).isSome = true :=
          (hinv.entry_iff k).mpr (Or.inr ⟨c2, hc2, of_decide_eq_true hp⟩)
        rw [hm0] at hs; simp at hs
      rw [← hn]
      refine ⟨rfl, rfl, rfl, rfl, c, ?_, ?_⟩
      · rw [List.find?_append, hdnone]
        have hfc : ([c].find? fun c2 => decide (k ∈ c2.parents)) = some c :=
          List.find?_cons_of_pos _ (by simpa using hk)
        rw [hfc]
        rfl
      · exact hbrc

theorem pass2Map_inv (commits : List Commit) (ctb : List (String × List String))
    (hnd : (commits.map (fun c => c.sha)).Nodup) :
    ∀ (todo done : List Commit) (m : List (String × Node)),
      commits = done ++ todo → Pass2Inv commits ctb done m →
      Pass2Inv commits ctb (done ++ todo)
        (todo.foldl
          (fun m c => c.parents.foldl (fun m parentSha => addParentEdge m c.sha parentSha) m)
          m) := by
  intro todo
  induction todo with
  | nil =>
    intro done m hsplit hinv
    simpa using hinv
  | cons c rest ih =>
    intro done m hsplit hinv
    rw [List.foldl_cons]
    have hstep := pass2_step_inv commits ctb done rest c m hnd hsplit hinv
    have hsplit2 : commits = (done ++ [c]) ++ rest := by
      rw [hsplit, List.append_assoc]
      rfl
    have := ih (done ++ [c]) _ hsplit2 hstep
    rwa [List.append_assoc] at this

theorem pass2Map_inv_full (commits : List Commit) (ctb : List (String × List String))
    (hnd : (commits.map (fun c => c.sha)).Nodup) :
    Pass2Inv commits ctb commits (pass2Map commits (pass1 ctb commits)) := by
  have h := pass2Map_inv commits ctb hnd commits [] (pass1 ctb commits) rfl
    (pass1_inv ctb commits hnd)
  rw [pass2Map]
  simpa using h

/-! ### Branch propagation only grows branch lists -/

theorem BranchExt_refl (m : List (String × Node)) : BranchExt m m := by
  refine ⟨fun k => rfl, ?_⟩
  intro k n1 n2 h1 h2
  rw [h1] at h2
  injection h2 with hn
  subst hn
  exact ⟨rfl, rfl, rfl, rfl, rfl, rfl, fun b hb => hb⟩

theorem BranchExt_trans {m1 m2 m3 : List (String × Node)}
    (h12 : BranchExt m1 m2) (h23 : BranchExt m2 m3) : BranchExt m1 m3 := by
  refine ⟨fun k => (h12.1 k).trans (h23.1 k), ?_⟩
  intro k n1 n3 h1 h3
  obtain ⟨n2, h2⟩ : ∃ n2, jsMapGet m2 k = some n2 := by
    have hs : (jsMapGet m2 k).isSome = true := by
      rw [← h12.1 k, h1]; rfl
    cases hk : jsMapGet m2 k
    · rw [hk] at hs; simp at hs
    · exact ⟨_, rfl⟩
  obtain ⟨a1, a2, a3, a4, a5, a6, a7⟩ := h12.2 k n1 n2 h1 h2
  obtain ⟨b1, b2, b3, b4, b5, b6, b7⟩ := h23.2 k n2 n3 h2 h3
  exact ⟨b1.trans a1, b2.trans a2, b3.trans a3, b4.trans a4, b5.trans a5,
    b6.trans a6, fun b hb => b7 b (a7 b hb)⟩

theorem BranchExt_set {m : List (String × Node)} {k : String} {n : Node}
    (br : List String) (h : jsMapGet m k = some n)
    (hsub : ∀ b ∈ n.branches, b ∈ br) :
    BranchExt m (jsMapSet m k { n with branches := br }) := by
  constructor
  · intro q
    by_cases hq : k = q
    · subst hq
      rw [jsMapGet_set_self, h]
      rfl
    · rw [jsMapGet_set_ne _ _ _ _ hq]
  · intro q n1 n2 h1 h2
    by_cases hq : k = q
    · subst hq
      rw [jsMapGet_set_self] at h2
      rw [h] at h1
      injection h1 with hn1
      injection h2 with hn2
      subst hn1
      rw [← hn2]
      exact ⟨rfl, rfl, rfl, rfl, rfl, rfl, hsub⟩
    · rw [jsMapGet_set_ne _ _ _ _ hq] at h2
      rw [h1] at h2
      injection h2 with hn
      subst hn
      exact ⟨rfl, rfl, rfl, rfl, rfl, rfl, fun b hb => hb⟩

theorem branchExt_foldl {step : PropState → String → PropState}
    (hstep : ∀ st p, BranchExt st.m (step st p).m) :
    ∀ (l : List String) (st : PropState), BranchExt st.m (l.foldl step st).m := by
  intro l
  induction l with
  | nil => intro st; exact BranchExt_refl _
  | cons p l ih =>
    intro st
    rw [List.foldl_cons]
    exact BranchExt_trans (hstep st p) (ih (step st p))

theorem propagate_branchExt :
    ∀ (fuel : Nat) (st : PropState) (sha : String) (branches : List String),
      BranchExt st.m (propagateBranchInfo fuel st sha branches).m := by
  intro fuel
  induction fuel with
  | zero => intro st sha branches; exact BranchExt_refl _
  | succ fuel ih =>
    intro st sha branches
    rw [propagateBranchInfo]
    by_cases hcase : sha ∈ st.visited ∨ branches = []
    · rw [if_pos hcase]; exact BranchExt_refl _
    · rw [if_neg hcase]
      cases hmk : jsMapGet st.m sha with
      | none =>
        simp only [hmk]
        exact BranchExt_refl _
      | some node =>
        simp only [hmk]
        have h1 : BranchExt st.m
            (jsMapSet st.m sha
              { node with branches := jsSetOfList (node.branches ++ branches) }) :=
          BranchExt_set (jsSetOfList (node.branches ++ branches)) hmk
            (fun b hb => mem_jsSetOfList.mpr (List.mem_append.mpr (Or.inl hb)))
        have h2 := branchExt_foldl (fun st2 p => ih st2 p branches) node.parentShas
          { m := jsMapSet st.m sha
              { node with branches := jsSetOfList (node.branches ++ branches) },
            visited := st.visited ++ [sha] }
        exact BranchExt_trans h1 h2

theorem runPropagation_branchExt (m : List (String × Node)) :
    BranchExt m (runPropagation m) := by
  rw [runPropagation]
  refine branchExt_foldl ?_ (m.map Prod.fst) { m := m, visited := [] }
  intro st sha
  cases hmk : jsMapGet st.m sha with
  | none => simp only [hmk]; exact BranchExt_refl _
  | some node =>
    simp only [hmk]
    by_cases hb : node.branches = []
    · rw [if_pos hb]; exact BranchExt_refl _
    · rw [if_neg hb]; exact propagate_branchExt _ _ _ _

/-! ### Branch propagation preserves the key sequence -/

theorem jsMapSet_keys_existing {α : Type} {m : List (String × α)} {k : String}
    (h : jsMapHas m k = true) (v : α) :
    (jsMapSet m k v).map Prod.fst = m.map Prod.fst := by
  rw [jsMapSet_keys, if_pos h]

theorem keys_foldl {step : PropState → String → PropState}
    (hstep : ∀ st p, (step st p).m.map Prod.fst = st.m.map Prod.fst) :
    ∀ (l : List String) (st : PropState),
      ((l.foldl step st).m.map Prod.fst) = st.m.map Prod.fst := by
  intro l
  induction l with
  | nil => intro st; rfl
  | cons p l ih =>
    intro st
    rw [List.foldl_cons, ih (step st p), hstep st p]

theorem propagate_keys :
    ∀ (fuel : Nat) (st : PropState) (sha : String) (branches : List String),
      (propagateBranchInfo fuel st sha branches).m.map Prod.fst
        = st.m.map Prod.fst := by
  intro fuel
  induction fuel with
  | zero => intro st sha branches; rfl
  | succ fuel ih =>
    intro st sha branches
    rw [propagateBranchInfo]
    by_cases hcase : sha ∈ st.visited ∨ branches = []
    · rw [if_pos hcase]
    · rw [if_neg hcase]
      cases hmk : jsMapGet st.m sha with
      | none => simp only [hmk]
      | some node =>
        simp only [hmk]
        rw [keys_foldl (fun st2 p => ih st2 p branches) node.parentShas]
        exact jsMapSet_keys_existing (by rw [jsMapHas, hmk]; rfl) _

theorem runPropagation_keys (m : List (String × Node)) :
    (runPropagation m).map Prod.fst = m.map Prod.fst := by
  rw [runPropagation]
  refine keys_foldl ?_ (m.map Prod.fst) { m := m, visited := [] }
  intro st sha
  cases hmk : jsMapGet st.m sha with
  | none => simp only [hmk]
  | some node =>
    simp only [hmk]
    by_cases hb : node.branches = []
    · rw [if_pos hb]
    · rw [if_neg hb]; exact propagate_keys _ _ _ _

/-! ### Key sequences through pass 2 and node extraction -/

theorem addParentEdge_keys_nodup {m : List (String × Node)} (cs ps : String)
    (h : (m.map Prod.fst).Nodup) :
    ((addParentEdge m cs ps).map Prod.fst).Nodup := by
  cases hmk : jsMapGet m ps with
  | some pn =>
    rw [addParentEdge_of_some hmk]
    by_cases hmem : cs ∈ pn.childShas
    · rwa [if_pos hmem]
    · rw [if_neg hmem]; exact jsMapSet_keys_nodup _ _ _ h
  | none =>
    rw [addParentEdge_of_none hmk]
    exact jsMapSet_keys_nodup _ _ _ h

theorem innerFold_keys_nodup (cs : String) :
    ∀ (ps : List String) (m : List (String × Node)),
      (m.map Prod.fst).Nodup →
      ((ps.foldl (fun m parentSha => addParentEdge m cs parentSha) m).map Prod.fst).Nodup := by
  intro ps
  induction ps with
  | nil => intro m h; exact h
  | cons p ps ih =>
    intro m h
    rw [List.foldl_cons]
    exact ih _ (addParentEdge_keys_nodup cs p h)

theorem pass2Map_keys_nodup (commits : List Commit) :
    ∀ m : List (String × Node), (m.map Prod.fst).Nodup →
      ((pass2Map commits m).map Prod.fst).Nodup := by
  induction commits with
  | nil => intro m h; exact h
  | cons c cs ih =>
    intro m h
    unfold pass2Map
    rw [List.foldl_cons]
    have := ih (c.parents.foldl (fun m parentSha => addParentEdge m c.sha parentSha) m)
      (innerFold_keys_nodup c.sha c.parents m h)
    unfold pass2Map at this
    exact this

theorem pass1_keys (ctb : List (String × List String)) (commits : List Commit)
    (hnd : (commits.map (fun c => c.sha)).Nodup) :
    (pass1 ctb commits).map Prod.fst = commits.map (fun c => c.sha) := by
  rw [pass1_eq ctb commits hnd, List.map_map]
  rfl

theorem buildGraph_nodes_eq (commits : List Commit) (ctb : List (String × List String)) :
    (buildGraphFromCommits commits ctb).nodes
      = (runPropagation (pass2Map commits (pass1 ctb commits))).map
          (fun e => classifyNode e.2) := by
  simp only [buildGraphFromCommits, pass2_fst, List.map_map]
  rfl

theorem buildGraph_links_eq (commits : List Commit) (ctb : List (String × List String)) :
    (buildGraphFromCommits commits ctb).links
      = commits.flatMap
          (fun c => c.parents.map (fun p => { source := c.sha, target := p })) := by
  simp only [buildGraphFromCommits, pass2_snd]

theorem buildGraph_nodes_char (commits : List Commit) (ctb : List (String × List String))
    (hnd : (commits.map (fun c => c.sha)).Nodup) :
    ∀ node ∈ (buildGraphFromCommits commits ctb).nodes,
      ∃ n2, jsMapGet (pass2Map commits (pass1 ctb commits)) node.id = some n2 ∧
        node.author = n2.author ∧ node.message = n2.message ∧ node.date = n2.date ∧
        node.parentShas = n2.parentShas ∧ node.childShas = n2.childShas ∧
        (∀ b ∈ n2.branches, b ∈ node.branches) ∧
        node.isMerge = decide (1 < n2.parentShas.length) ∧
        node.isSplit = decide (1 < n2.childShas.length) := by
  intro node hnode
  rw [buildGraph_nodes_eq] at hnode
  obtain ⟨e, he, heq⟩ := List.mem_map.mp hnode
  obtain ⟨k, n3⟩ := e
  have hkeysnd : ((runPropagation (pass2Map commits (pass1 ctb commits))).map Prod.fst).Nodup := by
    rw [runPropagation_keys]
    exact pass2Map_keys_nodup commits _ (by rw [pass1_keys ctb commits hnd]; exact hnd)
  have hget3 : jsMapGet (runPropagation (pass2Map commits (pass1 ctb commits))) k = some n3 :=
    jsMapGet_eq_some_of_mem hkeysnd he
  have hext := runPropagation_branchExt (pass2Map commits (pass1 ctb commits))
  obtain ⟨n2, hget2⟩ : ∃ n2, jsMapGet (pass2Map commits (pass1 ctb commits)) k = some n2 := by
    have hs : (jsMapGet (pass2Map commits (pass1 ctb commits)) k).isSome = true := by
      rw [hext.1 k, hget3]; rfl
    cases hg : jsMapGet (pass2Map commits (pass1 ctb commits)) k
    · rw [hg] at hs; simp at hs
    · exact ⟨_, rfl⟩
  obtain ⟨f1, f2, f3, f4, f5, f6, f7⟩ := hext.2 k n2 n3 hget2 hget3
  have hinv := pass2Map_inv_full commits ctb hnd
  have hid2 : n2.id = k := hinv.id_eq k n2 hget2
  have hid : node.id = k := by
    rw [← heq]
    show n3.id = k
    rw [f1, hid2]
  rw [hid, ← heq]
  refine ⟨n2, hget2, ?_, ?_, ?_, ?_, ?_, ?_, ?_, ?_⟩
  · show n3.author = n2.author
    rw [f2]
  · show n3.message = n2.message
    rw [f3]
  · show n3.date = n2.date
    rw [f4]
  · show n3.parentShas = n2.parentShas
    rw [f5]
  · show n3.childShas = n2.childShas
    rw [f6]
  · intro b hb
    show b ∈ n3.branches
    exact f7 b hb
  · show decide (1 < n3.parentShas.length) = decide (1 < n2.parentShas.length)
    rw [f5]
  · show decide (1 < n3.childShas.length) = decide (1 < n2.childShas.length)
    rw [f6]

theorem buildGraph_nodes_exists (commits : List Commit) (ctb : List (String × List String))
    (hnd : (commits.map (fun c => c.sha)).Nodup) :
    ∀ k, (jsMapGet (pass2Map commits (pass1 ctb commits)) k).isSome = true →
      ∃ node ∈ (buildGraphFromCommits commits ctb).nodes, node.id = k := by
  intro k hk
  have hext := runPropagation_branchExt (pass2Map commits (pass1 ctb commits))
  obtain ⟨n2, hget2⟩ : ∃ n2, jsMapGet (pass2Map commits (pass1 ctb commits)) k = some n2 := by
    cases hg : jsMapGet (pass2Map commits (pass1 ctb commits)) k
    · rw [hg] at hk; simp at hk
    · exact ⟨_, rfl⟩
  obtain ⟨n3, hget3⟩ : ∃ n3,
      jsMapGet (runPropagation (pass2Map commits (pass1 ctb commits))) k = some n3 := by
    have hs : (jsMapGet (runPropagation (pass2Map commits (pass1 ctb commits))) k).isSome = true := by
      rw [← hext.1 k, hget2]; rfl
    cases hg : jsMapGet (runPropagation (pass2Map commits (pass1 ctb commits))) k
    · rw [hg] at hs; simp at hs
    · exact ⟨_, rfl⟩
  obtain ⟨f1, _, _, _, _, _, _⟩ := hext.2 k n2 n3 hget2 hget3
  have hinv := pass2Map_inv_full commits ctb hnd
  have hid2 : n2.id = k := hinv.id_eq k n2 hget2
  refine ⟨classifyNode n3, ?_, ?_⟩
  · rw [buildGraph_nodes_eq]
    exact List.mem_map.mpr ⟨(k, n3), mem_of_jsMapGet_eq_some hget3, rfl⟩
  · show n3.id = k
    rw [f1, hid2]

/-! ### Claim theorems about the graph builder -/

/-- Claim C6: in every graph returned by the graph builder (whose input commit
list is deduplicated by sha, as the endpoint guarantees), for every pair of
nodes A and B, the id of A appears in the parent list of B exactly when the id
of B appears in the child list of A. -/
theorem c6_parent_child_bidirectional (commits : List Commit)
    (ctb : List (String × List String))
    (hnd : (commits.map (fun c => c.sha)).Nodup)
    (A B : Node)
    (hA : A ∈ (buildGraphFromCommits commits ctb).nodes)
    (hB : B ∈ (buildGraphFromCommits commits ctb).nodes) :
    A.id ∈ B.parentShas ↔ B.id ∈ A.childShas := by
  obtain ⟨nA, hgA, _, _, _, _, hAchild, _, _, _⟩ :=
    buildGraph_nodes_char commits ctb hnd A hA
  obtain ⟨nB, hgB, _, _, _, hBpar, _, _, _, _⟩ :=
    buildGraph_nodes_char commits ctb hnd B hB
  have hinv := pass2Map_inv_full commits ctb hnd
  rw [hBpar, hAchild]
  rw [hinv.child_iff A.id nA hgA B.id]
  constructor
  · intro h
    by_cases hBk : B.id ∈ commits.map (fun c => c.sha)
    · obtain ⟨cB, hfB⟩ : ∃ cB, commits.find? (fun c2 => c2.sha == B.id) = some cB := by
        have hs := find?_sha_isSome_iff.mpr hBk
        cases hf : commits.find? (fun c2 => c2.sha == B.id)
        · rw [hf] at hs; simp at hs
        · exact ⟨_, rfl⟩
      obtain ⟨hcmem, hcsha⟩ := find?_sha_spec hfB
      have hfields := hinv.commit_fields B.id nB hgB cB hfB
      refine ⟨cB, hcmem, hcsha, ?_⟩
      rw [← hfields.2.2.2.1]
      exact h
    · have hph := hinv.ph_fields B.id nB hgB hBk
      rw [hph.2.2.2.1] at h
      exact absurd h (List.not_mem_nil _)
  · rintro ⟨c, hcmem, hcsha, hApc⟩
    have hfB : commits.find? (fun c2 => c2.sha == B.id) = some c := by
      rw [← hcsha]
      exact find?_sha_self hnd hcmem
    have hfields := hinv.commit_fields B.id nB hgB c hfB
    rw [hfields.2.2.2.1]
    exact hApc

/-- Witness for C6 at a concrete two-commit graph. -/
theorem c6_parent_child_bidirectional_witness :
    (([mkCommit "X" ["P"], mkCommit "P" []].map (fun c => c.sha)).Nodup)
    ∧ ({ id := "P", author := "", message := "", date := "", branches := [],
         parentShas := [], childShas := ["X"], isMerge := false, isSplit := false } : Node)
        ∈ (buildGraphFromCommits [mkCommit "X" ["P"], mkCommit "P" []] []).nodes
    ∧ ({ id := "X", author := "", message := "", date := "", branches := [],
         parentShas := ["P"], childShas := [], isMerge := false, isSplit := false } : Node)
        ∈ (buildGraphFromCommits [mkCommit "X" ["P"], mkCommit "P" []] []).nodes
    ∧ (({ id := "P", author := "", message := "", date := "", branches := [],
          parentShas := [], childShas := ["X"], isMerge := false, isSplit := false } : Node).id
          ∈ ({ id := "X", author := "", message := "", date := "", branches := [],
               parentShas := ["P"], childShas := [], isMerge := false, isSplit := false } : Node).parentShas
        ↔ ({ id := "X", author := "", message := "", date := "", branches := [],
             parentShas := ["P"], childShas := [], isMerge := false, isSplit := false } : Node).id
          ∈ ({ id := "P", author := "", message := "", date := "", branches := [],
               parentShas := [], childShas := ["X"], isMerge := false, isSplit := false } : Node).childShas) :=
  ⟨by decide, by decide, by decide,
    c6_parent_child_bidirectional [mkCommit "X" ["P"], mkCommit "P" []] []
      (by decide) _ _ (by decide) (by decide)⟩

/-- Claim C9: every placeholder node (one whose id is not among the collected
commit shas) has an empty parent list and is therefore never classified as a
merge, regardless of what the real unfetched commit looks like. -/
theorem c9_placeholder_never_merge (commits : List Commit)
    (ctb : List (String × List String))
    (hnd : (commits.map (fun c => c.sha)).Nodup)
    (node : Node) (hnode : node ∈ (buildGraphFromCommits commits ctb).nodes)
    (hph : node.id ∉ commits.map (fun c => c.sha)) :
    node.parentShas = [] ∧ node.isMerge = false := by
  obtain ⟨n2, hg2, _, _, _, hpar, _, _, hmerge, _⟩ :=
    buildGraph_nodes_char commits ctb hnd node hnode
  have hinv := pass2Map_inv_full commits ctb hnd
  have hfields := hinv.ph_fields node.id n2 hg2 hph
  constructor
  · rw [hpar, hfields.2.2.2.1]
  · rw [hmerge, hfields.2.2.2.1]
    rfl

/-- Witness for C9: the unfetched parent P of the single collected commit X. -/
theorem c9_placeholder_never_merge_witness :
    (([mkCommit "X" ["P"]].map (fun c => c.sha)).Nodup)
    ∧ ({ id := "P", author := "", message := "(parent)", date := "", branches := [],
         parentShas := [], childShas := ["X"], isMerge := false, isSplit := false } : Node)
        ∈ (buildGraphFromCommits [mkCommit "X" ["P"]] []).nodes
    ∧ ({ id := "P", author := "", message := "(parent)", date := "", branches := [],
         parentShas := [], childShas := ["X"], isMerge := false, isSplit := false } : Node).id
        ∉ [mkCommit "X" ["P"]].map (fun c => c.sha)
    ∧ (({ id := "P", author := "", message := "(parent)", date := "", branches := [],
          parentShas := [], childShas := ["X"], isMerge := false, isSplit := false } : Node).parentShas = []
       ∧ ({ id := "P", author := "", message := "(parent)", date := "", branches := [],
            parentShas := [], childShas := ["X"], isMerge := false, isSplit := false } : Node).isMerge = false) :=
  ⟨by decide, by decide, by decide,
    c9_placeholder_never_merge [mkCommit "X" ["P"]] [] (by decide) _ (by decide) (by decide)⟩

/-- Counterexample to claim C4 as stated: in the graph built from commits C1
and C2 (both children of the unfetched parent P, with only C2 on branch main),
the placeholder node P has message "(parent)" — not the empty string — and its
final branch list is ["main"], not the empty branch list it inherited at
creation time from its first discovering child C1 (the propagation pass later
re-derived it from the other child C2). -/
theorem c4_placeholder_counterexample :
    ∃ node ∈ (buildGraphFromCommits [mkCommit "C1" ["P"], mkCommit "C2" ["P"]]
        [("C2", ["main"])]).nodes,
      node.id = "P" ∧ node.message = "(parent)" ∧ ¬ node.message = "" ∧
      ctbGet [("C2", ["main"])] "C1" = [] ∧ node.branches = ["main"] := by
  decide

/-- Claim C4 as amended: for every parent id referenced by a collected commit
but never itself fetched, the returned graph contains a placeholder node whose
author and date are the empty string, whose message is the sentinel
"(parent)", whose parent list is empty, and whose branch set is initialized at
creation from the first child that discovered it and afterwards only ever
extended (by the branch-propagation pass), never shrunk. -/
theorem c4_placeholder_fields (commits : List Commit)
    (ctb : List (String × List String)) (p : String)
    (hnd : (commits.map (fun c => c.sha)).Nodup)
    (href : ∃ c ∈ commits, p ∈ c.parents)
    (hnot : p ∉ commits.map (fun c => c.sha)) :
    ∃ node ∈ (buildGraphFromCommits commits ctb).nodes, node.id = p ∧
      node.author = "" ∧ node.date = "" ∧ node.message = "(parent)" ∧
      node.parentShas = [] ∧
      ∃ c, commits.find? (fun c2 => decide (p ∈ c2.parents)) = some c ∧
        ∀ b ∈ ctbGet ctb c.sha, b ∈ node.branches := by
  have hinv := pass2Map_inv_full commits ctb hnd
  have hsome : (jsMapGet (pass2Map commits (pass1 ctb commits)) p).isSome = true :=
    (hinv.entry_iff p).mpr (Or.inr href)
  obtain ⟨node, hnode, hid⟩ := buildGraph_nodes_exists commits ctb hnd p hsome
  obtain ⟨n2, hg2, hau, hmsg, hdate, hpar, _, hbr, _, _⟩ :=
    buildGraph_nodes_char commits ctb hnd node hnode
  rw [hid] at hg2
  obtain ⟨h1, h2, h3, h4, c, hfc, h5⟩ := hinv.ph_fields p n2 hg2 hnot
  refine ⟨node, hnode, hid, ?_, ?_, ?_, ?_, c, hfc, ?_⟩
  · rw [hau, h1]
  · rw [hdate, h3]
  · rw [hmsg, h2]
  · rw [hpar, h4]
  · intro b hb
    apply hbr
    rw [h5]
    exact hb

/-- Witness for C4 as amended, at the counterexample input: the placeholder P
is discovered first by C1 (whose branch set is empty), so its creation-time
branch set is contained in its final one. -/
theorem c4_placeholder_fields_witness :
    (([mkCommit "C1" ["P"], mkCommit "C2" ["P"]].map (fun c => c.sha)).Nodup)
    ∧ (∃ c ∈ [mkCommit "C1" ["P"], mkCommit "C2" ["P"]], "P" ∈ c.parents)
    ∧ ("P" ∉ [mkCommit "C1" ["P"], mkCommit "C2" ["P"]].map (fun c => c.sha))
    ∧ (∃ node ∈ (buildGraphFromCommits [mkCommit "C1" ["P"], mkCommit "C2" ["P"]]
          [("C2", ["main"])]).nodes, node.id = "P" ∧
        node.author = "" ∧ node.date = "" ∧ node.message = "(parent)" ∧
        node.parentShas = [] ∧
        ∃ c, [mkCommit "C1" ["P"], mkCommit "C2" ["P"]].find?
            (fun c2 => decide ("P" ∈ c2.parents)) = some c ∧
          ∀ b ∈ ctbGet [("C2", ["main"])] c.sha, b ∈ node.branches) :=
  ⟨by decide, by decide, by decide,
    c4_placeholder_fields [mkCommit "C1" ["P"], mkCommit "C2" ["P"]]
      [("C2", ["main"])] "P" (by decide) (by decide) (by decide)⟩

/-- Counterexample to claim C3 as stated: a collected commit whose parent list
repeats the same id produces the same link twice, so the links list is not
duplicate-free. -/
theorem c3_duplicate_link_counterexample :
    (buildGraphFromCommits [mkCommit "C" ["P", "P"]] []).links
        = [{ source := "C", target := "P" }, { source := "C", target := "P" }]
    ∧ ¬ (buildGraphFromCommits [mkCommit "C" ["P", "P"]] []).links.Nodup := by
  decide

/-- Claim C3 as amended: one link is pushed per (commit, parent-occurrence)
pair, so the links list is duplicate-free provided no collected commit's
parent list repeats an id (the unconditional dedup in pass 2 applies to the
childShas sets, not to the links). -/
theorem c3_links_nodup_of_parents_nodup (commits : List Commit)
    (ctb : List (String × List String))
    (hnd : (commits.map (fun c => c.sha)).Nodup)
    (hpar : ∀ c ∈ commits, c.parents.Nodup) :
    (buildGraphFromCommits commits ctb).links.Nodup := by
  rw [buildGraph_links_eq, List.nodup_flatMap]
  constructor
  · intro c hc
    refine List.Nodup.map ?_ (hpar c hc)
    intro p1 p2 he
    injection he with hs ht
  · have hpw : commits.Pairwise (fun a b => a.sha ≠ b.sha) :=
      List.pairwise_map.mp hnd
    refine hpw.imp ?_
    intro a b hne x hxa hxb
    obtain ⟨p1, _, he1⟩ := List.mem_map.mp hxa
    obtain ⟨p2, _, he2⟩ := List.mem_map.mp hxb
    apply hne
    rw [show a.sha = x.source from by rw [← he1], show x.source = b.sha from by rw [← he2]]

/-- Witness for C3 as amended: a single commit with a duplicate-free parent
list yields duplicate-free links. -/
theorem c3_links_nodup_of_parents_nodup_witness :
    (([mkCommit "C" ["P", "Q"]].map (fun c => c.sha)).Nodup)
    ∧ (∀ c ∈ [mkCommit "C" ["P", "Q"]], c.parents.Nodup)
    ∧ (buildGraphFromCommits [mkCommit "C" ["P", "Q"]] []).links.Nodup :=
  ⟨by decide, by decide,
    c3_links_nodup_of_parents_nodup [mkCommit "C" ["P", "Q"]] [] (by decide) (by decide)⟩

/-- Claim C1 demonstrated false on the code (the spec states the intended
invariant; the shared visited set of propagateBranchInfo fails to establish
it): running the full pipeline with branches b1 = [X, P] and b2 = [Y]
(maxCommits 3, Y a child of P), node Y carries branch b2 and P is reachable
from Y via parentShas, yet P does not carry b2 — the seed X visited P first
while propagating b1, so the later propagation of b2 from Y stopped at P. -/
theorem c1_propagation_violation :
    (∃ y ∈ (apiGraph 3 ["b1", "b2"] providerTwoBranch (fun _ => none)).1.nodes,
        y.id = "Y" ∧ "b2" ∈ y.branches ∧ "P" ∈ y.parentShas)
    ∧ ∀ p ∈ (apiGraph 3 ["b1", "b2"] providerTwoBranch (fun _ => none)).1.nodes,
        p.id = "P" → "b2" ∉ p.branches := by
  decide

/-! ### Collector quota lemmas -/

theorem processPage_len_le (maxCommits : Int) (branchName : String) :
    ∀ (page : List Commit) (st : CollectState) (saw : Bool),
      (st.allCommits.length : Int) < maxCommits →
      ((processPage maxCommits branchName page st saw).1.allCommits.length : Int)
        ≤ maxCommits := by
  intro page
  induction page with
  | nil =>
    intro st saw h
    exact le_of_lt h
  | cons c rest ih =>
    intro st saw h
    rw [processPage]
    by_cases hseen : c.sha ∈ st.seen
    · simp only [if_pos hseen]
      by_cases hq : maxCommits ≤ (st.allCommits.length : Int)
      · rw [if_pos hq]
        exact le_of_lt h
      · rw [if_neg hq]
        exact ih _ _ (lt_of_not_le hq)
    · simp only [if_neg hseen]
      have hlen : ((st.allCommits ++ [c]).length : Int) = (st.allCommits.length : Int) + 1 := by
        rw [List.length_append]
        simp
      by_cases hq : maxCommits ≤ ((st.allCommits ++ [c]).length : Int)
      · rw [if_pos hq]
        rw [hlen] at hq ⊢
        omega
      · rw [if_neg hq]
        exact ih _ _ (lt_of_not_le hq)

theorem branchLoop_len_le (maxCommits : Int) (branchName : String) :
    ∀ (pages : List (List Commit)) (st : CollectState),
      (st.allCommits.length : Int) ≤ maxCommits →
      ((branchLoop maxCommits branchName pages st).allCommits.length : Int)
        ≤ maxCommits := by
  intro pages
  induction pages with
  | nil =>
    intro st h
    exact h
  | cons page rest ih =>
    intro st h
    rw [branchLoop]
    by_cases hq : maxCommits ≤ (st.allCommits.length : Int)
    · rw [if_pos hq]
      exact h
    · rw [if_neg hq]
      by_cases hemp : page.isEmpty
      · rw [if_pos hemp]
        exact h
      · rw [if_neg hemp]
        have hpp := processPage_len_le maxCommits branchName page st false
          (lt_of_not_le hq)
        by_cases hbrk : (processPage maxCommits branchName page st false).2 = true
            ∨ page.length < 100
        · rw [if_pos hbrk]
          exact hpp
        · rw [if_neg hbrk]
          exact ih _ hpp

theorem collectCommits_len_le (maxCommits : Int) (branchTips : List String)
    (provider : String → List (List Commit)) (h0 : 0 ≤ maxCommits) :
    ((collectCommits maxCommits branchTips provider).allCommits.length : Int)
      ≤ maxCommits := by
  rw [collectCommits]
  suffices h : ∀ (tips : List String) (acc : CollectState × Bool),
      (acc.1.allCommits.length : Int) ≤ maxCommits →
      (((tips.foldl
          (fun acc branchName =>
            if acc.2 then acc
            else
              let st0 : CollectState :=
                { acc.1 with
                  perBranchCounts := jsMapSet acc.1.perBranchCounts branchName 0 }
              let st1 := branchLoop maxCommits branchName (provider branchName) st0
              (st1, decide (maxCommits ≤ (st1.allCommits.length : Int))))
          acc).1.allCommits.length : Int) ≤ maxCommits) by
    exact h branchTips _ (by simpa using h0)
  intro tips
  induction tips with
  | nil =>
    intro acc h
    exact h
  | cons b tips ih =>
    intro acc h
    rw [List.foldl_cons]
    by_cases hdone : acc.2 = true
    · rw [if_pos hdone]
      exact ih acc h
    · rw [if_neg hdone]
      refine ih _ ?_
      exact branchLoop_len_le maxCommits b (provider b) _ h

theorem processPage_pbc_le (maxCommits : Int) (branchName : String) :
    ∀ (page : List Commit) (st : CollectState) (saw : Bool),
      (∀ b n, jsMapGet st.perBranchCounts b = some n → n ≤ st.allCommits.length) →
      ∀ b n,
        jsMapGet (processPage maxCommits branchName page st saw).1.perBranchCounts b
          = some n →
        n ≤ (processPage maxCommits branchName page st saw).1.allCommits.length := by
  intro page
  induction page with
  | nil => intro st saw hinv; exact hinv
  | cons c rest ih =>
    intro st saw hinv
    rw [processPage]
    by_cases hseen : c.sha ∈ st.seen
    · simp only [if_pos hseen]
      by_cases hq : maxCommits ≤ (st.allCommits.length : Int)
      · rw [if_pos hq]
        exact hinv
      · rw [if_neg hq]
        exact ih _ _ hinv
    · simp only [if_neg hseen]
      have hinv2 : ∀ b n,
          jsMapGet (jsMapSet st.perBranchCounts branchName
            ((jsMapGet st.perBranchCounts branchName).getD 0 + 1)) b = some n →
          n ≤ (st.allCommits ++ [c]).length := by
        intro b n hb
        rw [List.length_append, List.length_singleton]
        by_cases hbb : branchName = b
        · subst hbb
          rw [jsMapGet_set_self] at hb
          injection hb with hn
          cases hg : jsMapGet st.perBranchCounts branchName with
          | none =>
            rw [hg] at hn
            simp at hn
            omega
          | some o =>
            rw [hg] at hn
            have ho := hinv branchName o hg
            simp at hn
            omega
        · rw [jsMapGet_set_ne _ _ _ _ hbb] at hb
          have hb2 := hinv b n hb
          omega
      by_cases hq : maxCommits ≤ ((st.allCommits ++ [c]).length : Int)
      · rw [if_pos hq]
        exact hinv2
      · rw [if_neg hq]
        exact ih _ _ hinv2

theorem branchLoop_pbc_le (maxCommits : Int) (branchName : String) :
    ∀ (pages : List (List Commit)) (st : CollectState),
      (∀ b n, jsMapGet st.perBranchCounts b = some n → n ≤ st.allCommits.length) →
      ∀ b n,
        jsMapGet (branchLoop maxCommits branchName pages st).perBranchCounts b = some n →
        n ≤ (branchLoop maxCommits branchName pages st).allCommits.length := by
  intro pages
  induction pages with
  | nil => intro st hinv; exact hinv
  | cons page rest ih =>
    intro st hinv
    rw [branchLoop]
    by_cases hq : maxCommits ≤ (st.allCommits.length : Int)
    · rw [if_pos hq]; exact hinv
    · rw [if_neg hq]
      by_cases hemp : page.isEmpty
      · rw [if_pos hemp]; exact hinv
      · rw [if_neg hemp]
        have hpp := processPage_pbc_le maxCommits branchName page st false hinv
        by_cases hbrk : (processPage maxCommits branchName page st false).2 = true
            ∨ page.length < 100
        · rw [if_pos hbrk]; exact hpp
        · rw [if_neg hbrk]; exact ih _ hpp

theorem collectCommits_pbc_le (maxCommits : Int) (branchTips : List String)
    (provider : String → List (List Commit)) :
    ∀ b n,
      jsMapGet (collectCommits maxCommits branchTips provider).perBranchCounts b = some n →
      n ≤ (collectCommits maxCommits branchTips provider).allCommits.length := by
  rw [collectCommits]
  suffices h : ∀ (tips : List String) (acc : CollectState × Bool),
      (∀ b n, jsMapGet acc.1.perBranchCounts b = some n → n ≤ acc.1.allCommits.length) →
      ∀ b n,
        jsMapGet ((tips.foldl
          (fun acc branchName =>
            if acc.2 then acc
            else
              let st0 : CollectState :=
                { acc.1 with
                  perBranchCounts := jsMapSet acc.1.perBranchCounts branchName 0 }
              let st1 := branchLoop maxCommits branchName (provider branchName) st0
              (st1, decide (maxCommits ≤ (st1.allCommits.length : Int))))
          acc).1).perBranchCounts b = some n →
        n ≤ ((tips.foldl
          (fun acc branchName =>
            if acc.2 then acc
            else
              let st0 : CollectState :=
                { acc.1 with
                  perBranchCounts := jsMapSet acc.1.perBranchCounts branchName 0 }
              let st1 := branchLoop maxCommits branchName (provider branchName) st0
              (st1, decide (maxCommits ≤ (st1.allCommits.length : Int))))
          acc).1).allCommits.length by
    refine h branchTips _ ?_
    intro b n hb
    simp [jsMapGet] at hb
  intro tips
  induction tips with
  | nil => intro acc h; exact h
  | cons b2 tips ih =>
    intro acc h
    rw [List.foldl_cons]
    by_cases hdone : acc.2 = true
    · rw [if_pos hdone]
      exact ih acc h
    · rw [if_neg hdone]
      refine ih _ ?_
      refine branchLoop_pbc_le maxCommits b2 (provider b2) _ ?_
      intro b n hb
      by_cases hbb : b2 = b
      · subst hbb
        rw [jsMapGet_set_self] at hb
        injection hb with hn
        omega
      · rw [jsMapGet_set_ne _ _ _ _ hbb] at hb
        exact h b n hb

/-- Claim C5: over any sequence of pages served by the provider, the total
number of newly accepted commits across all branches never exceeds
`maxCommits`.  The statement quantifies over every provider, and any
intermediate point of a run coincides with the final state of the run on a
suitably truncated provider, so the bound holds at every point during
collection as well as at the end. -/
theorem c5_global_budget_never_exceeded (maxCommits : Int) (branchTips : List String)
    (provider : String → List (List Commit)) (h0 : 0 ≤ maxCommits) :
    ((collectCommits maxCommits branchTips provider).allCommits.length : Int)
      ≤ maxCommits :=
  collectCommits_len_le maxCommits branchTips provider h0

/-- Witness for C5 at a concrete greedy provider and budget 2. -/
theorem c5_global_budget_never_exceeded_witness :
    ((0 : Int) ≤ 2)
    ∧ ((collectCommits 2 ["b1", "b2"] providerGreedy).allCommits.length : Int) ≤ 2 :=
  ⟨by decide, c5_global_budget_never_exceeded 2 ["b1", "b2"] providerGreedy (by decide)⟩

/-- Counterexample to claim C2 as stated: with maxCommits 4 and B = 2 selected
branches the claimed per-branch quota is floor(4/2) = 2 (remainder 0, so no
branch gets the extra unit), yet branch b1 accepts 4 newly seen commits — the
collection loop has no per-branch quota at all. -/
theorem c2_per_branch_quota_counterexample :
    jsMapGet (collectCommits 4 ["b1", "b2"] providerGreedy).perBranchCounts "b1"
      = some 4
    ∧ ¬ ((4 : Nat) ≤ 4 / 2)
    ∧ ¬ ((4 : Nat) ≤ 4 / 2 + 1) := by
  decide

/-- Claim C2 as amended: the collector enforces no per-branch quota; a
branch's accepted count is bounded only by the shared global budget
`maxCommits`, and its loop stops when the global count reaches `maxCommits`,
on an empty or short page, or once an already-seen commit appeared. -/
theorem c2_per_branch_bounded_by_global_budget (maxCommits : Int)
    (branchTips : List String) (provider : String → List (List Commit))
    (h0 : 0 ≤ maxCommits) :
    ∀ b n,
      jsMapGet (collectCommits maxCommits branchTips provider).perBranchCounts b = some n →
      (n : Int) ≤ maxCommits := by
  intro b n hb
  have h1 := collectCommits_pbc_le maxCommits branchTips provider b n hb
  have h2 := collectCommits_len_le maxCommits branchTips provider h0
  omega

/-- Witness for C2 as amended: branch b1 accepts the entire global budget. -/
theorem c2_per_branch_bounded_by_global_budget_witness :
    ((0 : Int) ≤ 4)
    ∧ jsMapGet (collectCommits 4 ["b1", "b2"] providerGreedy).perBranchCounts "b1"
        = some 4
    ∧ ((4 : Nat) : Int) ≤ 4 :=
  ⟨by decide, by decide,
    c2_per_branch_bounded_by_global_budget 4 ["b1", "b2"] providerGreedy
      (by decide) "b1" 4 (by decide)⟩

/-! ### Stats lemmas -/

theorem branchCounts_get (g : Graph) :
    ∀ (tips : List String) (bc : List (String × Nat)) (b : String),
      jsMapGet (tips.foldl
        (fun bc branch =>
          jsMapSet bc branch ((g.nodes.filter (fun n => n.branches.contains branch)).length))
        bc) b
      = if b ∈ tips then
          some ((g.nodes.filter (fun n => n.branches.contains b)).length)
        else jsMapGet bc b := by
  intro tips
  induction tips with
  | nil => intro bc b; simp
  | cons t tips ih =>
    intro bc b
    rw [List.foldl_cons, ih]
    by_cases hbt : b ∈ tips
    · rw [if_pos hbt, if_pos (List.mem_cons.mpr (Or.inr hbt))]
    · rw [if_neg hbt]
      by_cases hbt2 : b = t
      · rw [hbt2, if_pos (List.mem_cons_self t tips), jsMapGet_set_self]
      · rw [if_neg (fun hc => (List.mem_cons.mp hc).elim (fun h => hbt2 h) hbt),
          jsMapGet_set_ne _ _ _ _ (fun he => hbt2 he.symm)]

theorem computeStats_totalCommits (g : Graph) (tips : List String) :
    (computeStats g tips).totalCommits = g.nodes.length := rfl

theorem computeStats_pullRequests (g : Graph) (tips : List String) :
    (computeStats g tips).pullRequests = g.nodes.countP (fun n => n.isMerge) :=
  (List.countP_eq_length_filter _ _).symm

theorem computeStats_splitCommits (g : Graph) (tips : List String) :
    (computeStats g tips).splitCommits = g.nodes.countP (fun n => n.isSplit) :=
  (List.countP_eq_length_filter _ _).symm

theorem computeStats_authors (g : Graph) (tips : List String) :
    (computeStats g tips).authors
      = ((g.nodes.map (fun n => n.author)).filter (fun a => a != "")).toFinset.card :=
  jsSetOfList_length_eq_card _

theorem computeStats_branchCounts (g : Graph) (tips : List String) (b : String)
    (hb : b ∈ tips) :
    jsMapGet (computeStats g tips).branchCounts b
      = some (g.nodes.countP (fun n => n.branches.contains b)) := by
  show jsMapGet (tips.foldl
      (fun bc branch =>
        jsMapSet bc branch ((g.nodes.filter (fun n => n.branches.contains branch)).length))
      []) b
    = some (g.nodes.countP (fun n => n.branches.contains b))
  rw [branchCounts_get, if_pos hb, List.countP_eq_length_filter]

/-- Claim C7: the stats returned with every successful build are recomputed
from the finished graph and agree with it exactly: total equals the node
count, merge and split counts equal the counts of nodes flagged isMerge and
isSplit, the author count equals the number of distinct non-empty author
strings, and each selected branch's count equals the number of nodes whose
branch set contains it. -/
theorem c7_stats_recomputed_from_graph (maxCommits : Int) (branchTips : List String)
    (provider : String → List (List Commit)) (fetchCommit : String → Option Commit)
    (b : String) (hb : b ∈ branchTips) :
    (apiGraph maxCommits branchTips provider fetchCommit).2.totalCommits
        = (apiGraph maxCommits branchTips provider fetchCommit).1.nodes.length
    ∧ (apiGraph maxCommits branchTips provider fetchCommit).2.pullRequests
        = (apiGraph maxCommits branchTips provider fetchCommit).1.nodes.countP
            (fun n => n.isMerge)
    ∧ (apiGraph maxCommits branchTips provider fetchCommit).2.splitCommits
        = (apiGraph maxCommits branchTips provider fetchCommit).1.nodes.countP
            (fun n => n.isSplit)
    ∧ (apiGraph maxCommits branchTips provider fetchCommit).2.authors
        = (((apiGraph maxCommits branchTips provider fetchCommit).1.nodes.map
              (fun n => n.author)).filter (fun a => a != "")).toFinset.card
    ∧ jsMapGet (apiGraph maxCommits branchTips provider fetchCommit).2.branchCounts b
        = some ((apiGraph maxCommits branchTips provider fetchCommit).1.nodes.countP
            (fun n => n.branches.contains b)) := by
  have hpair : (apiGraph maxCommits branchTips provider fetchCommit).2
      = computeStats (apiGraph maxCommits branchTips provider fetchCommit).1 branchTips :=
    rfl
  rw [hpair]
  exact ⟨computeStats_totalCommits _ _, computeStats_pullRequests _ _,
    computeStats_splitCommits _ _, computeStats_authors _ _,
    computeStats_branchCounts _ branchTips b hb⟩

/-- Witness for C7 at a concrete one-branch run. -/
theorem c7_stats_recomputed_from_graph_witness :
    ("b1" ∈ ["b1"])
    ∧ ((apiGraph 3 ["b1"] providerTwoBranch (fun _ => none)).2.totalCommits
        = (apiGraph 3 ["b1"] providerTwoBranch (fun _ => none)).1.nodes.length
      ∧ (apiGraph 3 ["b1"] providerTwoBranch (fun _ => none)).2.pullRequests
        = (apiGraph 3 ["b1"] providerTwoBranch (fun _ => none)).1.nodes.countP
            (fun n => n.isMerge)
      ∧ (apiGraph 3 ["b1"] providerTwoBranch (fun _ => none)).2.splitCommits
        = (apiGraph 3 ["b1"] providerTwoBranch (fun _ => none)).1.nodes.countP
            (fun n => n.isSplit)
      ∧ (apiGraph 3 ["b1"] providerTwoBranch (fun _ => none)).2.authors
        = (((apiGraph 3 ["b1"] providerTwoBranch (fun _ => none)).1.nodes.map
              (fun n => n.author)).filter (fun a => a != "")).toFinset.card
      ∧ jsMapGet (apiGraph 3 ["b1"] providerTwoBranch (fun _ => none)).2.branchCounts "b1"
        = some ((apiGraph 3 ["b1"] providerTwoBranch (fun _ => none)).1.nodes.countP
            (fun n => n.branches.contains "b1"))) :=
  ⟨by decide,
    c7_stats_recomputed_from_graph 3 ["b1"] providerTwoBranch (fun _ => none) "b1"
      (by decide)⟩

/-! ### Ancestor expansion lemmas -/

theorem fetchLoop_spec (fetchCommit : String → Option Commit) (maxFetch : Nat) :
    ∀ (pending : List String) (i : Nat) (seen : List (String × Commit)) (fetched : Nat),
      (seen.map Prod.fst).Nodup → (∀ e ∈ seen, e.1 = e.2.sha) →
      ∃ extra,
        (fetchLoop fetchCommit maxFetch pending i (seen, fetched)).1 = seen ++ extra
        ∧ (∀ e ∈ extra, ∃ s ∈ pending, fetchCommit s = some e.2)
        ∧ (((seen ++ extra).map Prod.fst).Nodup)
        ∧ (∀ e ∈ seen ++ extra, e.1 = e.2.sha) := by
  intro pending
  induction pending with
  | nil =>
    intro i seen fetched hnd hsha
    refine ⟨[], ?_, ?_, ?_, ?_⟩
    · rw [fetchLoop]; simp
    · intro e he; exact absurd he (List.not_mem_nil e)
    · simpa using hnd
    · simpa using hsha
  | cons sha rest ih =>
    intro i seen fetched hnd hsha
    rw [fetchLoop]
    cases hf : fetchCommit sha with
    | none =>
      simp only [hf]
      by_cases hi : i + 1 == 10
      · rw [if_pos hi]
        by_cases hq : maxFetch ≤ fetched
        · rw [if_pos hq]
          refine ⟨[], by simp, ?_, by simpa using hnd, by simpa using hsha⟩
          intro e he; exact absurd he (List.not_mem_nil e)
        · rw [if_neg hq]
          obtain ⟨extra, h1, h2, h3, h4⟩ := ih 0 seen fetched hnd hsha
          exact ⟨extra, h1, fun e he =>
            (h2 e he).elim (fun s hs => ⟨s, List.mem_cons_of_mem sha hs.1, hs.2⟩), h3, h4⟩
      · rw [if_neg hi]
        obtain ⟨extra, h1, h2, h3, h4⟩ := ih (i + 1) seen fetched hnd hsha
        exact ⟨extra, h1, fun e he =>
          (h2 e he).elim (fun s hs => ⟨s, List.mem_cons_of_mem sha hs.1, hs.2⟩), h3, h4⟩
    | some commit =>
      simp only [hf]
      by_cases hhas : jsMapHas seen commit.sha = true
      · simp only [hhas, if_true]
        by_cases hi : i + 1 == 10
        · rw [if_pos hi]
          by_cases hq : maxFetch ≤ fetched
          · rw [if_pos hq]
            refine ⟨[], by simp, ?_, by simpa using hnd, by simpa using hsha⟩
            intro e he; exact absurd he (List.not_mem_nil e)
          · rw [if_neg hq]
            obtain ⟨extra, h1, h2, h3, h4⟩ := ih 0 seen fetched hnd hsha
            exact ⟨extra, h1, fun e he =>
              (h2 e he).elim (fun s hs => ⟨s, List.mem_cons_of_mem sha hs.1, hs.2⟩), h3, h4⟩
        · rw [if_neg hi]
          obtain ⟨extra, h1, h2, h3, h4⟩ := ih (i + 1) seen fetched hnd hsha
          exact ⟨extra, h1, fun e he =>
            (h2 e he).elim (fun s hs => ⟨s, List.mem_cons_of_mem sha hs.1, hs.2⟩), h3, h4⟩
      · have hhasf : jsMapHas seen commit.sha = false := by
          cases hh : jsMapHas seen commit.sha
          · rfl
          · exact absurd hh hhas
        simp only [hhasf, Bool.false_eq_true, if_false]
        rw [jsMapSet_fresh commit hhasf]
        have hnd2 : ((seen ++ [(commit.sha, commit)]).map Prod.fst).Nodup := by
          rw [← jsMapSet_fresh commit hhasf]
          exact jsMapSet_keys_nodup _ _ _ hnd
        have hsha2 : ∀ e ∈ seen ++ [(commit.sha, commit)], e.1 = e.2.sha := by
          intro e he
          rcases List.mem_append.mp he with h | h
          · exact hsha e h
          · rcases List.mem_singleton.mp h with rfl
            rfl
        have hmain : ∀ extra2,
            ((fetchLoop fetchCommit maxFetch rest 0
                (seen ++ [(commit.sha, commit)], fetched + 1)).1
              = (seen ++ [(commit.sha, commit)]) ++ extra2
            ∧ (∀ e ∈ extra2, ∃ s ∈ rest, fetchCommit s = some e.2)
            ∧ (((seen ++ [(commit.sha, commit)]) ++ extra2).map Prod.fst).Nodup
            ∧ (∀ e ∈ (seen ++ [(commit.sha, commit)]) ++ extra2, e.1 = e.2.sha)) →
            ∃ extra,
              (fetchLoop fetchCommit maxFetch rest 0
                  (seen ++ [(commit.sha, commit)], fetched + 1)).1 = seen ++ extra
              ∧ (∀ e ∈ extra, ∃ s ∈ sha :: rest, fetchCommit s = some e.2)
              ∧ (((seen ++ extra).map Prod.fst).Nodup)
              ∧ (∀ e ∈ seen ++ extra, e.1 = e.2.sha) := by
          intro extra2 ⟨h1, h2, h3, h4⟩
          refine ⟨(commit.sha, commit) :: extra2, ?_, ?_, ?_, ?_⟩
          · rw [h1, List.append_assoc]
            rfl
          · intro e he
            rcases List.mem_cons.mp he with rfl | h
            · exact ⟨sha, List.mem_cons_self sha rest, hf⟩
            · obtain ⟨s, hs1, hs2⟩ := h2 e h
              exact ⟨s, List.mem_cons_of_mem sha hs1, hs2⟩
          · rw [show seen ++ (commit.sha, commit) :: extra2
                = (seen ++ [(commit.sha, commit)]) ++ extra2 from by
              rw [List.append_assoc]; rfl]
            exact h3
          · rw [show seen ++ (commit.sha, commit) :: extra2
                = (seen ++ [(commit.sha, commit)]) ++ extra2 from by
              rw [List.append_assoc]; rfl]
            exact h4
        by_cases hi : i + 1 == 10
        · rw [if_pos hi]
          by_cases hq : maxFetch ≤ fetched + 1
          · rw [if_pos hq]
            refine ⟨[(commit.sha, commit)], rfl, ?_, hnd2, hsha2⟩
            intro e he
            rcases List.mem_singleton.mp he with rfl
            exact ⟨sha, List.mem_cons_self sha rest, hf⟩
          · rw [if_neg hq]
            obtain ⟨extra2, h1, h2, h3, h4⟩ := ih 0 (seen ++ [(commit.sha, commit)])
              (fetched + 1) hnd2 hsha2
            exact hmain extra2 ⟨h1, h2, h3, h4⟩
        · rw [if_neg hi]
          obtain ⟨extra2, h1, h2, h3, h4⟩ := ih (i + 1) (seen ++ [(commit.sha, commit)])
            (fetched + 1) hnd2 hsha2
          -- identical reasoning with in-batch position i + 1
          refine ⟨(commit.sha, commit) :: extra2, ?_, ?_, ?_, ?_⟩
          · rw [h1, List.append_assoc]
            rfl
          · intro e he
            rcases List.mem_cons.mp he with rfl | h
            · exact ⟨sha, List.mem_cons_self sha rest, hf⟩
            · obtain ⟨s, hs1, hs2⟩ := h2 e h
              exact ⟨s, List.mem_cons_of_mem sha hs1, hs2⟩
          · rw [show seen ++ (commit.sha, commit) :: extra2
                = (seen ++ [(commit.sha, commit)]) ++ extra2 from by
              rw [List.append_assoc]; rfl]
            exact h3
          · rw [show seen ++ (commit.sha, commit) :: extra2
                = (seen ++ [(commit.sha, commit)]) ++ extra2 from by
              rw [List.append_assoc]; rfl]
            exact h4

/-- Claim C8: a fetch failure for an individual parent id never aborts
ancestor expansion: for an arbitrary single-commit fetcher (including one
failing on any subset of ids) the expander returns the original working set
unchanged and in order, followed only by commits some fetch succeeded on, and
the whole output is deduplicated by sha.  A failed id contributes nothing and
is left to become a placeholder during graph building. -/
theorem c8_ensure_parents_isolation (initialCommits : List Commit)
    (fetchCommit : String → Option Commit) (maxFetch : Nat)
    (hnd : (initialCommits.map (fun c => c.sha)).Nodup) :
    (∃ fetchedPart, ensureParents initialCommits fetchCommit maxFetch
        = initialCommits ++ fetchedPart
      ∧ ∀ c ∈ fetchedPart, ∃ s, fetchCommit s = some c)
    ∧ ((ensureParents initialCommits fetchCommit maxFetch).map (fun c => c.sha)).Nodup := by
  have hseen0 : initialCommits.foldl (fun m c => jsMapSet m c.sha c) []
      = initialCommits.map (fun c => (c.sha, c)) := by
    have h := foldl_jsMapSet_fresh (fun c => c.sha) (fun c => c) initialCommits []
      (by intro c hc; simp) hnd
    simpa using h
  have hnd0 : ((initialCommits.map (fun c => (c.sha, c))).map Prod.fst).Nodup := by
    have he : (initialCommits.map (fun c => (c.sha, c))).map Prod.fst
        = initialCommits.map (fun c => c.sha) := by
      rw [List.map_map]
      rfl
    rw [he]
    exact hnd
  have hsha0 : ∀ e ∈ initialCommits.map (fun c => (c.sha, c)), e.1 = e.2.sha := by
    intro e he
    obtain ⟨c, _, rfl⟩ := List.mem_map.mp he
    rfl
  have hunfold : ensureParents initialCommits fetchCommit maxFetch
      = (fetchLoop fetchCommit maxFetch
          ((missingParentsOf initialCommits
            (initialCommits.foldl (fun m c => jsMapSet m c.sha c) [])).take
              (min maxFetch 200))
          0 (initialCommits.foldl (fun m c => jsMapSet m c.sha c) [], 0)).1.map Prod.snd :=
    rfl
  obtain ⟨extra, h1, h2, h3, h4⟩ := fetchLoop_spec fetchCommit maxFetch
    ((missingParentsOf initialCommits
      (initialCommits.map (fun c => (c.sha, c)))).take (min maxFetch 200))
    0 (initialCommits.map (fun c => (c.sha, c))) 0 hnd0 hsha0
  rw [hunfold, hseen0, h1]
  constructor
  · refine ⟨extra.map Prod.snd, ?_, ?_⟩
    · rw [List.map_append, List.map_map]
      have hmapid : initialCommits.map (Prod.snd ∘ fun c => (c.sha, c)) = initialCommits := by
        have h5 : initialCommits.map (Prod.snd ∘ fun c => (c.sha, c))
            = initialCommits.map id := List.map_congr_left (fun c _ => rfl)
        rw [h5, List.map_id]
      rw [hmapid]
    · intro c hc
      obtain ⟨e, he, rfl⟩ := List.mem_map.mp hc
      obtain ⟨s, _, hs⟩ := h2 e he
      exact ⟨s, hs⟩
  · have he2 : ((initialCommits.map (fun c => (c.sha, c)) ++ extra).map Prod.snd).map
        (fun c => c.sha)
      = (initialCommits.map (fun c => (c.sha, c)) ++ extra).map Prod.fst := by
      rw [List.map_map]
      refine List.map_congr_left ?_
      intro e he
      exact (h4 e he).symm
    rw [he2]
    exact h3

/-- Witness for C8: one initial commit with two missing parents, the fetch of
p1 failing and the fetch of p2 succeeding. -/
theorem c8_ensure_parents_isolation_witness :
    (([mkCommit "A" ["p1", "p2"]].map (fun c => c.sha)).Nodup)
    ∧ ((∃ fetchedPart, ensureParents [mkCommit "A" ["p1", "p2"]] fetchOneOfTwo 200
          = [mkCommit "A" ["p1", "p2"]] ++ fetchedPart
        ∧ ∀ c ∈ fetchedPart, ∃ s, fetchOneOfTwo s = some c)
      ∧ ((ensureParents [mkCommit "A" ["p1", "p2"]] fetchOneOfTwo 200).map
          (fun c => c.sha)).Nodup) :=
  ⟨by decide,
    c8_ensure_parents_isolation [mkCommit "A" ["p1", "p2"]] fetchOneOfTwo 200 (by decide)⟩

/-! ### Non-positive budget -/

theorem branchLoop_nonpos (maxCommits : Int) (branchName : String)
    (h0 : maxCommits ≤ 0) :
    ∀ (pages : List (List Commit)) (st : CollectState), st.allCommits = [] →
      (branchLoop maxCommits branchName pages st).allCommits = [] := by
  intro pages st h
  cases pages with
  | nil => exact h
  | cons page rest =>
    have hq : maxCommits ≤ (st.allCommits.length : Int) := by
      rw [h]
      simpa using h0
    rw [branchLoop, if_pos hq]
    exact h

theorem collectCommits_nonpos (maxCommits : Int) (branchTips : List String)
    (provider : String → List (List Commit)) (h0 : maxCommits ≤ 0) :
    (collectCommits maxCommits branchTips provider).allCommits = [] := by
  rw [collectCommits]
  suffices h : ∀ (tips : List String) (acc : CollectState × Bool),
      acc.1.allCommits = [] →
      ((tips.foldl
        (fun acc branchName =>
          if acc.2 then acc
          else
            let st0 : CollectState :=
              { acc.1 with
                perBranchCounts := jsMapSet acc.1.perBranchCounts branchName 0 }
            let st1 := branchLoop maxCommits branchName (provider branchName) st0
            (st1, decide (maxCommits ≤ (st1.allCommits.length : Int))))
        acc).1).allCommits = [] by
    exact h branchTips _ rfl
  intro tips
  induction tips with
  | nil => intro acc h; exact h
  | cons b tips ih =>
    intro acc h
    rw [List.foldl_cons]
    by_cases hdone : acc.2 = true
    · rw [if_pos hdone]; exact ih acc h
    · rw [if_neg hdone]
      refine ih _ ?_
      exact branchLoop_nonpos maxCommits b h0 (provider b) _ h

/-- Claim C10: with a non-positive `maxCommits` the collection loop accepts no
commits regardless of what the provider returns, and the response carries an
empty graph: no nodes, no links, and a total-commit stat of 0. -/
theorem c10_nonpositive_budget_empty_graph (maxCommits : Int)
    (branchTips : List String) (provider : String → List (List Commit))
    (fetchCommit : String → Option Commit) (h0 : maxCommits ≤ 0) :
    (apiGraph maxCommits branchTips provider fetchCommit).1.nodes = []
    ∧ (apiGraph maxCommits branchTips provider fetchCommit).1.links = []
    ∧ (apiGraph maxCommits branchTips provider fetchCommit).2.totalCommits = 0 := by
  have hc := collectCommits_nonpos maxCommits branchTips provider h0
  have hg : (apiGraph maxCommits branchTips provider fetchCommit).1
      = buildGraphFromCommits []
          (collectCommits maxCommits branchTips provider).commitToBranches := by
    show buildGraphFromCommits
        (ensureParents
          (uniqueBySha (collectCommits maxCommits branchTips provider).allCommits)
          fetchCommit MAX_PARENT_FETCH)
        (collectCommits maxCommits branchTips provider).commitToBranches
      = _
    rw [hc]
    rfl
  have htot : (apiGraph maxCommits branchTips provider fetchCommit).2.totalCommits
      = (apiGraph maxCommits branchTips provider fetchCommit).1.nodes.length := rfl
  refine ⟨?_, ?_, ?_⟩
  · rw [hg]
    rfl
  · rw [hg]
    rfl
  · rw [htot, hg]
    rfl

/-- Witness for C10 at budget 0. -/
theorem c10_nonpositive_budget_empty_graph_witness :
    ((0 : Int) ≤ 0)
    ∧ ((apiGraph 0 ["b1", "b2"] providerTwoBranch (fun _ => none)).1.nodes = []
      ∧ (apiGraph 0 ["b1", "b2"] providerTwoBranch (fun _ => none)).1.links = []
      ∧ (apiGraph 0 ["b1", "b2"] providerTwoBranch (fun _ => none)).2.totalCommits = 0) :=
  ⟨by decide,
    c10_nonpositive_budget_empty_graph 0 ["b1", "b2"] providerTwoBranch
      (fun _ => none) (by decide)⟩
